import Mathlib

/-!
Verification of the Hermes type-inference pass
(`lib/Optimizer/Scalar/TypeInference.cpp`).

The pass logic (transfer functions, PHI handling, memory-slot inference,
the intra-procedural fixed point, the monotonicity guard and the module
driver) is embedded from the C++ source.  The `Type` lattice, the IR value
classes and the call-graph provider are declared in headers that are not
part of this repository's sources; those parts are modelled from the
specification (they are marked as such in their doc comments).
-/

namespace TypeInference

/-- Modelled from the spec: the primitive type tags of the lattice (§3.1).
`Number` is split into the three refinement atoms `numInt32`, `numUint32`
and `numOther`, so that `Int32` and `Uint32` are refinements of `Number`
with set semantics. -/
inductive Tag where
  | empty
  | undef
  | null
  | boolean
  | str
  | numInt32
  | numUint32
  | numOther
  | bigint
  | object
  | environment
  | closure
  | regexp
  | argumentsTag
  | arrayTag
  | symbolTag
deriving DecidableEq, Repr

instance : Fintype Tag :=
  ⟨⟨{.empty, .undef, .null, .boolean, .str, .numInt32, .numUint32, .numOther,
     .bigint, .object, .environment, .closure, .regexp, .argumentsTag,
     .arrayTag, .symbolTag}, by decide⟩, by intro x; cases x <;> decide⟩

/-- Modelled from the spec: a `Type` is semantically a finite set of
primitive type tags (§3.1); we represent it as one Boolean per tag.
(The C++ class `Type` lives in a header outside this repository.)
`Type` is a reserved word in Lean, hence the name `Ty`. -/
structure Ty where
  empty : Bool := false
  undef : Bool := false
  null : Bool := false
  boolean : Bool := false
  str : Bool := false
  numInt32 : Bool := false
  numUint32 : Bool := false
  numOther : Bool := false
  bigint : Bool := false
  object : Bool := false
  environment : Bool := false
  closure : Bool := false
  regexp : Bool := false
  argumentsTag : Bool := false
  arrayTag : Bool := false
  symbolTag : Bool := false
deriving DecidableEq, Repr

/-- Membership of a tag in a type's set. -/
def Ty.mem (t : Ty) : Tag → Bool
  | .empty => t.empty
  | .undef => t.undef
  | .null => t.null
  | .boolean => t.boolean
  | .str => t.str
  | .numInt32 => t.numInt32
  | .numUint32 => t.numUint32
  | .numOther => t.numOther
  | .bigint => t.bigint
  | .object => t.object
  | .environment => t.environment
  | .closure => t.closure
  | .regexp => t.regexp
  | .argumentsTag => t.argumentsTag
  | .arrayTag => t.arrayTag
  | .symbolTag => t.symbolTag

/-- `Type::createNoType()`: the empty set (bottom, "not yet inferred"). -/
def createNoType : Ty := {}

/-- `Type::createAnyType()`: the universe of all tags (top). -/
def createAnyType : Ty :=
  { empty := true, undef := true, null := true, boolean := true, str := true,
    numInt32 := true, numUint32 := true, numOther := true, bigint := true,
    object := true, environment := true, closure := true, regexp := true,
    argumentsTag := true, arrayTag := true, symbolTag := true }

def createUndefined : Ty := { undef := true }

def createNull : Ty := { null := true }

def createBoolean : Ty := { boolean := true }

def createString : Ty := { str := true }

def createNumber : Ty := { numInt32 := true, numUint32 := true, numOther := true }

def createInt32 : Ty := { numInt32 := true }

def createUint32 : Ty := { numUint32 := true }

def createBigInt : Ty := { bigint := true }

def createObject : Ty := { object := true }

def createEnvironment : Ty := { environment := true }

def createClosure : Ty := { closure := true }

def createRegExp : Ty := { regexp := true }

def createArguments : Ty := { argumentsTag := true }

def createArray : Ty := { arrayTag := true }

def createEmptyTy : Ty := { empty := true }

/-- `Type::unionTy`: set union, tag by tag. -/
def unionTy (a b : Ty) : Ty :=
  { empty := a.empty || b.empty
    undef := a.undef || b.undef
    null := a.null || b.null
    boolean := a.boolean || b.boolean
    str := a.str || b.str
    numInt32 := a.numInt32 || b.numInt32
    numUint32 := a.numUint32 || b.numUint32
    numOther := a.numOther || b.numOther
    bigint := a.bigint || b.bigint
    object := a.object || b.object
    environment := a.environment || b.environment
    closure := a.closure || b.closure
    regexp := a.regexp || b.regexp
    argumentsTag := a.argumentsTag || b.argumentsTag
    arrayTag := a.arrayTag || b.arrayTag
    symbolTag := a.symbolTag || b.symbolTag }

/-- `Type::intersectTy`: set intersection, tag by tag. -/
def intersectTy (a b : Ty) : Ty :=
  { empty := a.empty && b.empty
    undef := a.undef && b.undef
    null := a.null && b.null
    boolean := a.boolean && b.boolean
    str := a.str && b.str
    numInt32 := a.numInt32 && b.numInt32
    numUint32 := a.numUint32 && b.numUint32
    numOther := a.numOther && b.numOther
    bigint := a.bigint && b.bigint
    object := a.object && b.object
    environment := a.environment && b.environment
    closure := a.closure && b.closure
    regexp := a.regexp && b.regexp
    argumentsTag := a.argumentsTag && b.argumentsTag
    arrayTag := a.arrayTag && b.arrayTag
    symbolTag := a.symbolTag && b.symbolTag }

/-- Subset by set semantics of the lattice. -/
def subsetTy (a b : Ty) : Prop := ∀ g : Tag, a.mem g = true → b.mem g = true

instance (a b : Ty) : Decidable (subsetTy a b) := by
  unfold subsetTy; infer_instance

/-- `Type::isNoType()`: the set is empty. -/
def isNoType (t : Ty) : Bool := t = createNoType

/-- `Type::isAnyType()`: the set is the universe. -/
def isAnyType (t : Ty) : Bool := t = createAnyType

/-- Modelled from the spec: `isNumberType(t)` holds when `t` is exactly the
number tag or one of its refinements (a non-empty subset of the number
atoms). -/
def isNumberType (t : Ty) : Bool := !isNoType t && decide (subsetTy t createNumber)

/-- Modelled from the spec: `isBigIntType(t)` likewise. -/
def isBigIntType (t : Ty) : Bool := !isNoType t && decide (subsetTy t createBigInt)

/-- Modelled from the spec: `isStringType(t)` likewise. -/
def isStringType (t : Ty) : Bool := !isNoType t && decide (subsetTy t createString)

/-- `Type::canBeBigInt`: the BigInt tag appears in the set. -/
def canBeBigInt (t : Ty) : Bool := t.bigint

/-- `Type::canBeString`: the String tag appears in the set. -/
def canBeString (t : Ty) : Bool := t.str

/-- Modelled from the spec: `isSideEffectFree(t)` is true when `t` excludes
all tags whose implicit conversion could run user code, i.e. excludes
`Object` (§3.1). -/
def isSideEffectFree (t : Ty) : Bool := !t.object

/-! ## IR model

Values, instructions, functions and modules.  The IR classes are declared
in headers outside this repository; their shape is modelled from the spec
(§3.2-§3.3, §6.2) at the granularity the pass uses.  Instructions are
identified by a numeric id; literals carry a payload so that distinct
literals stay distinct (Hermes uniques literals, so pointer equality of
literals is structural equality). -/

/-- An IR value as it appears in an operand position: an instruction
result, a formal parameter `(function, index)`, a variable, or a literal.
Literal types are fixed at construction and are never cleared. -/
inductive Value where
  | instRef (i : Nat)
  | paramRef (f : Nat) (i : Nat)
  | varRef (v : Nat)
  | litUndef
  | litNull
  | litBool (b : Bool)
  | litNumber (payload : Nat)
  | litString (payload : Nat)
  | litEmpty
deriving DecidableEq, Repr

/-- The type annotation of a literal (set at IR construction). -/
def litType : Value → Ty
  | .litUndef => createUndefined
  | .litNull => createNull
  | .litBool _ => createBoolean
  | .litNumber _ => createNumber
  | .litString _ => createString
  | .litEmpty => createEmptyTy
  | _ => createNoType

/-- Binary operators dispatched by `inferBinaryInst`. -/
inductive BinOp where
  | eq | neq | strictEq | strictNeq | lt | le | gt | ge | inOp | instanceOf
  | divide | multiply | exponentiation | subtract | leftShift | rightShift
  | modulo | unsignedRightShift | add | andOp | orOp | xorOp
deriving DecidableEq, Repr

/-- Unary operators dispatched by `inferUnaryOperatorInst`. -/
inductive UnOp where
  | voidOp | typeofOp | inc | dec | minus | tilde | bang
deriving DecidableEq, Repr

/-- Instruction kinds.  This is the subset of the Hermes opcode families
needed by the claims; each constructor carries the instruction's operands
in source order. -/
inductive InstKind where
  | binOp (op : BinOp) (lhs rhs : Value)
  | unOp (op : UnOp) (operand : Value)
  | phi (entries : List Value)
  | mov (operand : Value)
  | loadStack (operand : Value)
  | storeStack (value : Value) (addr : Value)
  | allocStack
  | loadFrame (operand : Value)
  | storeFrame (value : Value) (slot : Value)
  | loadParam (f : Nat) (i : Nat)
  | call (callee : Value) (args : List Value)
  | construct (callee : Value) (args : List Value)
  | callBuiltin (args : List Value)
  | hbcCallN (callee : Value) (args : List Value)
  | loadProperty (object : Value) (property : Value)
  | tryLoadGlobalProperty (object : Value) (property : Value)
  | storeOwnProperty (value : Value) (object : Value) (property : Value)
  | storeNewOwnProperty (value : Value) (object : Value) (property : Value)
  | storePropertyLoose (value : Value) (object : Value) (property : Value)
  | storePropertyStrict (value : Value) (object : Value) (property : Value)
  | allocObject
  | allocArray
  | catchInst
  | throwIfEmpty (checkedValue : Value)
  | ret (value : Value)
  | branch
  | condBranch (cond : Value)
  | unreachableInst
deriving DecidableEq, Repr

/-- The operand list of an instruction (basic-block operands of
terminators are omitted: they are not typed values in this model). -/
def operandsOf : InstKind → List Value
  | .binOp _ l r => [l, r]
  | .unOp _ v => [v]
  | .phi entries => entries
  | .mov v => [v]
  | .loadStack v => [v]
  | .storeStack v a => [v, a]
  | .allocStack => []
  | .loadFrame v => [v]
  | .storeFrame v w => [v, w]
  | .loadParam f i => [.paramRef f i]
  | .call c args => c :: args
  | .construct c args => c :: args
  | .callBuiltin args => args
  | .hbcCallN c args => c :: args
  | .loadProperty o p => [o, p]
  | .tryLoadGlobalProperty o p => [o, p]
  | .storeOwnProperty v o p => [v, o, p]
  | .storeNewOwnProperty v o p => [v, o, p]
  | .storePropertyLoose v o p => [v, o, p]
  | .storePropertyStrict v o p => [v, o, p]
  | .allocObject => []
  | .allocArray => []
  | .catchInst => []
  | .throwIfEmpty v => [v]
  | .ret v => [v]
  | .branch => []
  | .condBranch c => [c]
  | .unreachableInst => []

/-- `Instruction::hasOutput()`: stores and terminators have no output. -/
def hasOutputK : InstKind → Bool
  | .storeStack _ _ => false
  | .storeFrame _ _ => false
  | .storeOwnProperty _ _ _ => false
  | .storeNewOwnProperty _ _ _ => false
  | .storePropertyLoose _ _ _ => false
  | .storePropertyStrict _ _ _ => false
  | .ret _ => false
  | .branch => false
  | .condBranch _ => false
  | .unreachableInst => false
  | _ => true

/-- `Instruction::getInherentType()`: only `AllocArray` has an inherent
type among the kinds modelled here (spec §4.1 lists it under the
inherent-type allocations). -/
def inherentTypeK : InstKind → Option Ty
  | .allocArray => some createArray
  | _ => none

/-- Is the kind a PHI? -/
def isPhiK : InstKind → Bool
  | .phi _ => true
  | _ => false

/-- A basic block: instruction ids in order, the last being the
terminator. -/
structure BasicBlock where
  insts : List Nat
deriving DecidableEq, Repr

/-- A function: basic blocks, number of formal parameters, the variables
of its function scope, and the generator-inner / global-scope flags. -/
structure Func where
  blocks : List BasicBlock
  paramCount : Nat
  vars : List Nat
  isGeneratorInner : Bool
  isGlobalScope : Bool
deriving DecidableEq, Repr

/-- A module: functions, plus the instruction table (id to kind). -/
structure Module where
  funcs : List Func
  instrs : List (Nat × InstKind)
deriving DecidableEq, Repr

def emptyFunc : Func := ⟨[], 0, [], false, false⟩

def funcAt (M : Module) (f : Nat) : Func := M.funcs.getD f emptyFunc

/-- First-match lookup in the instruction table. -/
def lookupInst : List (Nat × InstKind) → Nat → Option InstKind
  | [], _ => none
  | (j, k) :: rest, i => if i = j then some k else lookupInst rest i

/-- The kind of the instruction with id `i` (ids absent from the table act
as a no-operand, no-output terminator; well-formed modules list every id). -/
def instAt (M : Module) (i : Nat) : InstKind := (lookupInst M.instrs i).getD .branch

/-- The terminator of a basic block (`BasicBlock::getTerminator`), i.e.
its last instruction. -/
def terminatorOf (M : Module) (b : BasicBlock) : Option InstKind :=
  match b.insts.getLast? with
  | some i => some (instAt M i)
  | none => none

/-- Instruction ids of a function, in basic-block order. -/
def instIdsOf (M : Module) (f : Nat) : List Nat :=
  ((funcAt M f).blocks.map (·.insts)).flatten

/-- `Value::getUsers()`: the instructions of the module that use `v` as an
operand.  (The C++ use list has one entry per use; all consumers of the
user list are insensitive to such duplicates, so one entry per using
instruction is an equivalent model.) -/
def usersOf (M : Module) (v : Value) : List (Nat × InstKind) :=
  M.instrs.filter (fun jk => v ∈ operandsOf jk.2)

/-- Modelled from the spec: the call-graph oracle scoped to one function
(§6.3).  `SimpleCallGraphProvider` is outside this repository; the engine
only queries these fields.  `knownCallsites` answers for the scoped
function itself, the per-instruction queries are keyed by instruction id,
and the store queries by receiver (allocation) instruction id. -/
structure Oracle where
  hasUnknownCallsites : Bool
  knownCallsites : List Nat
  hasUnknownCallees : Nat → Bool
  knownCallees : Nat → List Nat
  hasUnknownReceivers : Nat → Bool
  knownReceivers : Nat → List Nat
  hasUnknownStores : Nat → Bool
  knownStores : Nat → List Nat

/-- The keys of the mutable type annotations: instructions, functions
(return type), formal parameters, and variables. -/
inductive VKey where
  | inst (i : Nat)
  | fn (f : Nat)
  | par (f : Nat) (i : Nat)
  | var (v : Nat)
deriving DecidableEq, Repr

/-- The mutable type-annotation state of the module. -/
def Types := VKey → Ty

/-- `Value::setType` on the annotation state. -/
def update (ty : Types) (k : VKey) (t : Ty) : Types :=
  fun k' => if k' = k then t else ty k'

/-- `Value::getType()` for an operand value. -/
def valueType (ty : Types) : Value → Ty
  | .instRef i => ty (.inst i)
  | .paramRef f i => ty (.par f i)
  | .varRef v => ty (.var v)
  | v => litType v

/-! ## Transfer functions (TypeInference.cpp, anonymous namespace) -/

/-- `inferUnaryArith`: unary arithmetic on the operand's type with a given
number-result shape. -/
def inferUnaryArith (opTy : Ty) (numberResultType : Ty) : Ty :=
  if isNumberType opTy then numberResultType
  else if isBigIntType opTy then createBigInt
  else
    unionTy numberResultType
      (if canBeBigInt opTy then createBigInt else createNoType)

/-- `inferUnaryArithDefault`. -/
def inferUnaryArithDefault (opTy : Ty) : Ty := inferUnaryArith opTy createNumber

/-- `inferTilde`. -/
def inferTilde (opTy : Ty) : Ty := inferUnaryArith opTy createInt32

/-- Loop body of `inferMemoryLocationType`: walk the users of the memory
location; `StoreFrame`/`StoreStack` users contribute the stored value's
type, loads are skipped, and any other user aborts with `AnyType`. -/
def memLocGo (ty : Types) : List (Nat × InstKind) → Ty → Ty
  | [], acc => acc
  | (_, k) :: rest, acc =>
    match k with
    | .storeFrame v _ => memLocGo ty rest (unionTy acc (valueType ty v))
    | .storeStack v _ => memLocGo ty rest (unionTy acc (valueType ty v))
    | .loadFrame _ => memLocGo ty rest acc
    | .loadStack _ => memLocGo ty rest acc
    | _ => createAnyType

/-- `inferMemoryLocationType`: the type of the value stored into a stack
location or variable. -/
def inferMemoryLocationType (M : Module) (ty : Types) (addr : Value) : Ty :=
  memLocGo ty (usersOf M addr) createNoType

/-- `inferMemoryType`: re-infer the type of variable `v`, reporting
whether it changed. -/
def inferMemoryType (M : Module) (ty : Types) (v : Nat) : Types × Bool :=
  let T := inferMemoryLocationType M ty (.varRef v)
  if T = ty (.var v) then (ty, false) else (update ty (.var v) T, true)

/-- The entry values of a PHI instruction (empty for a non-PHI id). -/
def phiEntries (M : Module) (p : Nat) : List Value :=
  match instAt M p with
  | .phi entries => entries
  | _ => []

/-- Is a value a PHI instruction's result? -/
def isPhiValue (M : Module) : Value → Bool
  | .instRef q => isPhiK (instAt M q)
  | _ => false

/-- `SmallPtrSet::insert` on the input list: insert if absent. -/
def insertValue (v : Value) (l : List Value) : List Value :=
  if v ∈ l then l else v :: l

/-- `collectPHIInputs`: collect the non-PHI values feeding a tree of PHIs,
recursing through PHI operands with a visited set.  The C++ recursion
terminates because every nested call visits a new PHI; the structural
`fuel` argument realizes that argument — one fuel is spent per visited
node, so any fuel larger than the number of instructions is enough, and
all callers pass `M.instrs.length + 1`. -/
def collectPHIInputs (M : Module) : Nat → Nat → List Nat × List Value → List Nat × List Value
  | 0, _, st => st
  | fuel + 1, p, st =>
    if p ∈ st.1 then st
    else
      (phiEntries M p).foldl
        (fun acc e =>
          match e with
          | .instRef q =>
            if isPhiK (instAt M q) then collectPHIInputs M fuel q acc
            else (acc.1, insertValue e acc.2)
          | _ => (acc.1, insertValue e acc.2))
        (p :: st.1, st.2)

/-- The body of the entry fold of `collectPHIInputs`, named for the
proofs: recurse into PHI-typed entries, insert the others as inputs. -/
def collectStep (M : Module) (fuel : Nat) (acc : List Nat × List Value)
    (e : Value) : List Nat × List Value :=
  match e with
  | .instRef q =>
    if isPhiK (instAt M q) then collectPHIInputs M fuel q acc
    else (acc.1, insertValue e acc.2)
  | _ => (acc.1, insertValue e acc.2)

/-- The ids carrying a PHI kind in the instruction table (the recursion
of `collectPHIInputs` only ever visits these). -/
def phiIds (M : Module) : List Nat :=
  (M.instrs.filter fun jk => isPhiK jk.2).map Prod.fst

/-- The number of PHI ids not yet in the visited set: the termination
measure of the PHI-collection recursion. -/
def countUnvisited (M : Module) (vis : List Nat) : Nat :=
  ((phiIds M).filter fun j => decide (j ∉ vis)).length

/-- The visited set `V` and input set `I` are closed at PHI `q`: each of
`q`'s PHI-typed entries is visited and each of its other entries is an
input. -/
def EntriesClosed (M : Module) (q : Nat) (V : List Nat) (I : List Value) : Prop :=
  (∀ r : Nat, Value.instRef r ∈ phiEntries M q → isPhiK (instAt M r) = true → r ∈ V) ∧
  (∀ e ∈ phiEntries M q, isPhiValue M e = false → e ∈ I)

/-- `TypeInferenceImpl::inferPhi`: union the types of the transitive
non-PHI inputs; report a change when any input is still untyped or the
union differs from the previous type. -/
def inferPhi (M : Module) (ty : Types) (i : Nat) (entries : List Value) : Types × Bool :=
  if entries.length < 1 then (ty, false)
  else
    let values := (collectPHIInputs M (M.instrs.length + 1) i ([], [])).2
    let originalTy := ty (.inst i)
    let st :=
      values.foldl
        (fun (acc : Ty × Bool) input =>
          let T := valueType ty input
          (unionTy T acc.1, acc.2 || isNoType T))
        (createNoType, false)
    (update ty (.inst i) st.1, decide (st.1 ≠ originalTy) || st.2)

/-- `inferBinaryArith`. -/
def inferBinaryArith (LeftTy RightTy : Ty) (numberType : Ty) : Ty :=
  if isNumberType LeftTy && isNumberType RightTy then numberType
  else if isBigIntType LeftTy && isBigIntType RightTy then createBigInt
  else
    unionTy numberType
      (if canBeBigInt LeftTy && canBeBigInt RightTy then createBigInt
       else createNoType)

/-- `inferBinaryBitwise`. -/
def inferBinaryBitwise (LeftTy RightTy : Ty) : Ty :=
  unionTy createInt32
    (if canBeBigInt LeftTy && canBeBigInt RightTy then createBigInt
     else createNoType)

/-- The `BinaryAddInstKind` case of `inferBinaryInst` (the `+` operator). -/
def inferBinaryAdd (LeftTy RightTy : Ty) : Ty :=
  if isStringType LeftTy || isStringType RightTy then createString
  else if isNumberType LeftTy && isNumberType RightTy then createNumber
  else if isBigIntType LeftTy && isBigIntType RightTy then createBigInt
  else
    let mayBeBigInt :=
      if canBeBigInt LeftTy && canBeBigInt RightTy then createBigInt
      else createNoType
    let numeric := unionTy createNumber mayBeBigInt
    if isSideEffectFree LeftTy && isSideEffectFree RightTy &&
        !canBeString LeftTy && !canBeString RightTy then
      numeric
    else unionTy numeric createString

/-- `inferBinaryInst`: dispatch over the binary operator kinds. -/
def inferBinaryInst (ty : Types) (op : BinOp) (l r : Value) : Ty :=
  let LeftTy := valueType ty l
  let RightTy := valueType ty r
  match op with
  | .eq | .neq | .strictEq | .strictNeq | .lt | .le | .gt | .ge
  | .inOp | .instanceOf => createBoolean
  | .divide | .multiply | .exponentiation | .subtract
  | .leftShift | .rightShift => inferBinaryArith LeftTy RightTy createNumber
  | .modulo => inferBinaryArith LeftTy RightTy createInt32
  | .unsignedRightShift => createUint32
  | .add => inferBinaryAdd LeftTy RightTy
  | .andOp | .orOp | .xorOp => inferBinaryBitwise LeftTy RightTy

/-- Loop of `inferFunctionReturnType`: fold over the blocks whose
terminator is a `Return`, skipping leading `NoType` values via the
`first` flag. -/
def retFold (M : Module) (ty : Types) : List BasicBlock → Bool × Ty → Bool × Ty
  | [], st => st
  | b :: rest, (first, acc) =>
    match terminatorOf M b with
    | some (.ret v) =>
      let T := valueType ty v
      if first && !isNoType T then retFold M ty rest (false, T)
      else retFold M ty rest (first, unionTy acc T)
    | _ => retFold M ty rest (first, acc)

/-- `inferFunctionReturnType`: `AnyType` for generator-inner functions,
otherwise the union of the types of returned values.  The local C++
variable `Type returnTy` is default-constructed; per the spec the empty
union is the bottom element, so it is modelled as `NoType`. -/
def inferFunctionReturnType (M : Module) (ty : Types) (f : Nat) : Types × Bool :=
  let F := funcAt M f
  let originalTy := ty (.fn f)
  let returnTy :=
    if F.isGeneratorInner then createAnyType
    else (retFold M ty F.blocks (true, createNoType)).2
  if returnTy = originalTy then (ty, false) else (update ty (.fn f) returnTy, true)

/-- `BaseCallInst::getArgument` access: the argument list of a call-site
instruction (the oracle hands the engine `BaseCallInst` values only, so
non-call kinds cannot occur there; they act as zero-argument calls). -/
def callArgsAt (M : Module) (ci : Nat) : List Value :=
  match instAt M ci with
  | .call _ args => args
  | .construct _ args => args
  | .callBuiltin args => args
  | .hbcCallN _ args => args
  | _ => []

/-- Inner loop of `propagateArgs` for one formal index `i`: union the
types of the `i`-th actual of every call site, the argument defaulting to
the literal `undefined` when the call site passes fewer arguments. -/
def argFold (M : Module) (ty : Types) (i : Nat) : List Nat → Bool × Ty → Bool × Ty
  | [], st => st
  | c :: rest, (first, acc) =>
    let arg := (callArgsAt M c).getD i Value.litUndef
    if first then argFold M ty i rest (false, valueType ty arg)
    else argFold M ty i rest (false, unionTy acc (valueType ty arg))

/-- Outer loop of `propagateArgs` over the formal parameter indices. -/
def propagateArgsLoop (M : Module) (callSites : List Nat) (f : Nat) :
    Types → List Nat → Types
  | ty, [] => ty
  | ty, i :: rest =>
    let st := argFold M ty i callSites (true, createNoType)
    let ty' :=
      if st.1 then update ty (.par f i) createAnyType
      else update ty (.par f i) st.2
    propagateArgsLoop M callSites f ty' rest

/-- `propagateArgs`: propagate argument types from the known call sites
into the formal parameters of function `f`. -/
def propagateArgs (M : Module) (ty : Types) (callSites : List Nat) (f : Nat) : Types :=
  propagateArgsLoop M callSites f ty (List.range (funcAt M f).paramCount)

/-- The parameter-clearing loop of `inferParams` when call sites are
unknown: every formal parameter becomes `AnyType`. -/
def setParamsAny (f : Nat) : Types → List Nat → Types
  | ty, [] => ty
  | ty, i :: rest => setParamsAny f (update ty (.par f i) createAnyType) rest

/-- `TypeInferenceImpl::inferParams`. -/
def inferParams (M : Module) (o : Oracle) (f : Nat) (ty : Types) : Types :=
  if o.hasUnknownCallsites then
    setParamsAny f ty (List.range (funcAt M f).paramCount)
  else propagateArgs M ty o.knownCallsites f

/-- Loop of `inferBaseCallInst` over the known callees, skipping leading
`NoType` return types via the `first` flag.  (The C++ accumulator is
uninitialized but provably never observed before being set; it is seeded
with `NoType` here.) -/
def calleeFold (ty : Types) : List Nat → Bool × Ty → Bool × Ty
  | [], st => st
  | g :: rest, (first, acc) =>
    let T := ty (.fn g)
    if first && !isNoType T then calleeFold ty rest (false, T)
    else calleeFold ty rest (first, unionTy acc T)

/-- `inferBaseCallInst`: propagate the return type from potential callees
of a `Call` or `Construct`. -/
def inferBaseCallInst (o : Oracle) (ty : Types) (ci : Nat) : Ty :=
  if o.hasUnknownCallees ci then createAnyType
  else
    let st := calleeFold ty (o.knownCallees ci) (true, createNoType)
    if !st.1 then st.2 else createAnyType

/-- `isOwnedProperty`: does some `StoreOwnProperty`-family user of the
allocation write the requested property? -/
def isOwnedProperty (M : Module) (allocId : Nat) (prop : Value) : Bool :=
  (usersOf M (.instRef allocId)).any fun jk =>
    match jk.2 with
    | .storeOwnProperty _ o p => o = .instRef allocId && p = prop
    | .storeNewOwnProperty _ o p => o = .instRef allocId && p = prop
    | _ => false

def isAllocObjectK : InstKind → Bool
  | .allocObject => true
  | _ => false

def isAllocArrayK : InstKind → Bool
  | .allocArray => true
  | _ => false

/-- The `storeVal` computation of one iteration of the store loop in
`inferLoadPropertyInst`: `none` models the failed
`assert(storeVal != nullptr)` (a fatal error), `some none` models
`continue` (a skipped store), and `some (some v)` a qualifying store of
value `v`. -/
def lpStoreVal (rIsObj rIsArr : Bool) (prop : Value) (sk : InstKind) :
    Option (Option Value) :=
  if rIsObj then
    match sk with
    | .storeOwnProperty v _ p => if p = prop then some (some v) else some none
    | .storeNewOwnProperty v _ p => if p = prop then some (some v) else some none
    | .storePropertyLoose v _ p => if p = prop then some (some v) else some none
    | .storePropertyStrict v _ p => if p = prop then some (some v) else some none
    | _ => none
  else if rIsArr then
    match sk with
    | .storePropertyLoose v _ _ => some (some v)
    | .storePropertyStrict v _ _ => some (some v)
    | _ => none
  else none

/-- Store loop of `inferLoadPropertyInst` for one receiver, threading the
`(first, retTy, unique)` state. -/
def lpStores (M : Module) (ty : Types) (rIsObj rIsArr : Bool) (prop : Value) :
    List Nat → Bool × Ty × Bool → Option (Bool × Ty × Bool)
  | [], st => some st
  | s :: rest, (first, acc, uniq) =>
    match lpStoreVal rIsObj rIsArr prop (instAt M s) with
    | none => none
    | some none => lpStores M ty rIsObj rIsArr prop rest (first, acc, uniq)
    | some (some v) =>
      if first then lpStores M ty rIsObj rIsArr prop rest (false, valueType ty v, uniq)
      else lpStores M ty rIsObj rIsArr prop rest (false, unionTy acc (valueType ty v), false)

/-- Receiver loop of `inferLoadPropertyInst`; `Sum.inl t` models an early
`return t` out of the whole function, `Sum.inr st` the state after the
loop.  (The debug-only `assert(isa<AllocObjectInst>(R))` is a no-op in
release builds and is not modelled; the `assert(storeVal != nullptr)`
guards a null dereference and is modelled as the fatal outcome `none`.) -/
def lpReceivers (M : Module) (o : Oracle) (ty : Types) (prop : Value) :
    List Nat → Bool × Ty × Bool → Option (Ty ⊕ (Bool × Ty × Bool))
  | [], st => some (.inr st)
  | r :: rest, st =>
    if o.hasUnknownStores r then some (.inl createAnyType)
    else
      let rk := instAt M r
      if isAllocObjectK rk && !isOwnedProperty M r prop then some (.inl createAnyType)
      else
        match lpStores M ty (isAllocObjectK rk) (isAllocArrayK rk) prop (o.knownStores r) st with
        | none => none
        | some st' => lpReceivers M o ty prop rest st'

/-- `TypeInferenceImpl::inferLoadPropertyInst`.  The second component is
the increment applied to the `UniquePropertyValue` statistic. -/
def inferLoadPropertyInst (M : Module) (o : Oracle) (ty : Types) (i : Nat)
    (prop : Value) : Option (Ty × Nat) :=
  if o.hasUnknownReceivers i then some (createAnyType, 0)
  else
    match lpReceivers M o ty prop (o.knownReceivers i) (true, createNoType, true) with
    | none => none
    | some (.inl t) => some (t, 0)
    | some (.inr (first, acc, uniq)) =>
      let upv := if !first && uniq then 1 else 0
      if !first then some (acc, upv) else some (createAnyType, upv)

/-- `TypeInferenceImpl::inferUnaryOperatorInst`. -/
def inferUnaryOperatorInst (ty : Types) (op : UnOp) (v : Value) : Ty :=
  match op with
  | .voidOp => createUndefined
  | .typeofOp => createString
  | .inc | .dec | .minus => inferUnaryArithDefault (valueType ty v)
  | .tilde => inferTilde (valueType ty v)
  | .bang => createBoolean

/-- The per-kind dispatch of `inferInstruction` (the generated `switch`
over `Instrs.def` and the `inferXXXInst` member functions).  The result
pairs the inferred type with the `UniquePropertyValue` increment; `none`
models a fatal error (only reachable through `inferLoadPropertyInst`).
The PHI case is unreachable from `inferInstruction` (handled before the
dispatch) and maps to the fatal `none` of `inferPhiInst`. -/
def dispatchInfer (M : Module) (o : Oracle) (ty : Types) (i : Nat) :
    InstKind → Option (Ty × Nat)
  | .binOp op l r => some (inferBinaryInst ty op l r, 0)
  | .unOp op v => some (inferUnaryOperatorInst ty op v, 0)
  | .phi _ => none
  | .mov v => some (valueType ty v, 0)
  | .loadStack v => some (valueType ty v, 0)
  | .storeStack _ _ => some (createNoType, 0)
  | .allocStack =>
    some (if (usersOf M (.instRef i)).isEmpty then createAnyType
          else inferMemoryLocationType M ty (.instRef i), 0)
  | .loadFrame v => some (valueType ty v, 0)
  | .storeFrame _ _ => some (createNoType, 0)
  | .loadParam f j => some (ty (.par f j), 0)
  | .call _ _ => some (inferBaseCallInst o ty i, 0)
  | .construct _ _ => some (inferBaseCallInst o ty i, 0)
  | .callBuiltin _ => some (createAnyType, 0)
  | .hbcCallN _ _ => some (createAnyType, 0)
  | .loadProperty _ p => inferLoadPropertyInst M o ty i p
  | .tryLoadGlobalProperty _ _ => some (createAnyType, 0)
  | .storeOwnProperty _ _ _ => some (createNoType, 0)
  | .storeNewOwnProperty _ _ _ => some (createNoType, 0)
  | .storePropertyLoose _ _ _ => some (createNoType, 0)
  | .storePropertyStrict _ _ _ => some (createNoType, 0)
  | .allocObject => some (createObject, 0)
  | .allocArray => some (createArray, 0)
  | .catchInst => some (createAnyType, 0)
  | .throwIfEmpty v => some (valueType ty v, 0)
  | .ret _ => some (createNoType, 0)
  | .branch => some (createNoType, 0)
  | .condBranch _ => some (createNoType, 0)
  | .unreachableInst => some (createNoType, 0)

/-- `TypeInferenceImpl::inferInstruction`: PHIs go to `inferPhi`; any
still-untyped operand defers the instruction to the next iteration; a
changed inferred type bumps `NumTI` and is written back.  The result is
`(new types, changed, NumTI increment, UniquePropertyValue increment)`. -/
def inferInstruction (M : Module) (o : Oracle) (ty : Types) (i : Nat) :
    Option (Types × Bool × Nat × Nat) :=
  let k := instAt M i
  match k with
  | .phi entries =>
    let r := inferPhi M ty i entries
    some (r.1, r.2, 0, 0)
  | _ =>
    let originalTy := ty (.inst i)
    if (operandsOf k).any (fun v => isNoType (valueType ty v)) then
      some (ty, true, 0, 0)
    else
      match dispatchInfer M o ty i k with
      | none => none
      | some (inferredTy, upv) =>
        if inferredTy = originalTy then some (ty, false, 0, upv)
        else some (update ty (.inst i) inferredTy, true, 1, upv)

/-! ## Driver (`runOnFunction` / `runOnModule`) -/

/-- The values cleared by `clearTypesInFunction`, with their cleared-to
types, in source order: instructions (to their inherent type when they
have one, else `NoType`), parameters, variables, and the function's
return type. -/
def clearSpec (M : Module) (f : Nat) : List (VKey × Ty) :=
  ((instIdsOf M f).map fun i =>
    (VKey.inst i, (inherentTypeK (instAt M i)).getD createNoType))
  ++ ((List.range (funcAt M f).paramCount).map fun i => (VKey.par f i, createNoType))
  ++ ((funcAt M f).vars.map fun v => (VKey.var v, createNoType))
  ++ [(VKey.fn f, createNoType)]

/-- Walk the clear list: record each value's current type into the
pre-pass list and reset the value.  The C++ `prePassTypes_.try_emplace`
keeps the first insertion for a key; recording every occurrence and
looking the list up first-match-first is equivalent. -/
def clearList : Types → List (VKey × Ty) → List (VKey × Ty) × Types
  | ty, [] => ([], ty)
  | ty, (k, cv) :: rest =>
    let saved := ty k
    let r := clearList (update ty k cv) rest
    ((k, saved) :: r.1, r.2)

/-- First-match lookup in the pre-pass list (`prePassTypes_.find`). -/
def lookupPre : List (VKey × Ty) → VKey → Option Ty
  | [], _ => none
  | (k, t) :: rest, k' => if k' = k then some t else lookupPre rest k'

/-- `TypeInferenceImpl::clearTypesInFunction`. -/
def clearTypesInFunction (M : Module) (f : Nat) (ty : Types) :
    List (VKey × Ty) × Types :=
  clearList ty (clearSpec M f)

/-- `TypeInferenceImpl::checkAndSetPrePassType`: when the value's type
differs from its recorded pre-pass type, replace it with the intersection
of the two.  (The boolean result is never consumed by the caller and is
dropped.) -/
def checkAndSetPrePassType (pre : List (VKey × Ty)) (ty : Types) (k : VKey) : Types :=
  match lookupPre pre k with
  | none => ty
  | some t => if t = ty k then ty else update ty k (intersectTy t (ty k))

/-- The values visited by the monotonicity-guard loops at the end of
`runOnFunction`, in source order: the instructions, the function itself,
the parameters, and — only when the function is not the global scope —
the variables. -/
def guardKeys (M : Module) (f : Nat) : List VKey :=
  ((instIdsOf M f).map VKey.inst)
  ++ [VKey.fn f]
  ++ ((List.range (funcAt M f).paramCount).map (VKey.par f))
  ++ (if (funcAt M f).isGlobalScope then []
      else (funcAt M f).vars.map VKey.var)

/-- The monotonicity-guard loops: apply `checkAndSetPrePassType` to every
guarded value. -/
def guardPhase (pre : List (VKey × Ty)) : Types → List VKey → Types
  | ty, [] => ty
  | ty, k :: rest => guardPhase pre (checkAndSetPrePassType pre ty k) rest

/-- The instruction loop of one iteration of the fixed point
(`inferredInst |= inferInstruction(I)` over all blocks), summing the two
statistic increments. -/
def inferInsts (M : Module) (o : Oracle) : List Nat → Types → Option (Types × Bool × Nat × Nat)
  | [], ty => some (ty, false, 0, 0)
  | i :: rest, ty =>
    match inferInstruction M o ty i with
    | none => none
    | some (ty1, ch, d1, d2) =>
      match inferInsts M o rest ty1 with
      | none => none
      | some (ty2, ch2, e1, e2) => some (ty2, ch || ch2, d1 + e1, d2 + e2)

/-- The variable loop of one iteration
(`inferredVarType |= inferMemoryType(V)`). -/
def inferVars (M : Module) : List Nat → Types × Bool → Types × Bool
  | [], st => st
  | v :: rest, (ty, ch) =>
    let r := inferMemoryType M ty v
    inferVars M rest (r.1, ch || r.2)

/-- One iteration of the `do … while (localChanged)` loop of
`runOnFunction`: instructions, then the function return type, then the
variables. -/
def iterOnce (M : Module) (o : Oracle) (f : Nat) (ty : Types) :
    Option (Types × Bool × Nat × Nat) :=
  match inferInsts M o (instIdsOf M f) ty with
  | none => none
  | some (ty1, ch1, d1, d2) =>
    let r2 := inferFunctionReturnType M ty1 f
    let r3 := inferVars M (funcAt M f).vars (r2.1, false)
    some (r3.1, ch1 || r2.2 || r3.2, d1, d2)

/-- The `do … while (localChanged)` fixed point.  The C++ loop runs until
convergence; `fuel` bounds the number of iterations, and `none` means the
loop did not converge within the bound (the pass did not complete). -/
def fixLoop (M : Module) (o : Oracle) (f : Nat) : Nat → Types → Option (Types × Nat × Nat)
  | 0, _ => none
  | fuel + 1, ty =>
    match iterOnce M o f ty with
    | none => none
    | some (ty1, ch, d1, d2) =>
      if ch then
        match fixLoop M o f fuel ty1 with
        | none => none
        | some (ty2, e1, e2) => some (ty2, d1 + e1, d2 + e2)
      else some (ty1, d1, d2)

/-- `TypeInferenceImpl::runOnFunction`: clear and record pre-pass types,
seed the parameters, iterate the local fixed point, then apply the
monotonicity guard.  The result is
`(types, returned bool, NumTI increment, UniquePropertyValue increment)`;
the C++ function returns `true` unconditionally. -/
def runOnFunction (M : Module) (o : Oracle) (fuel : Nat) (f : Nat) (ty : Types) :
    Option (Types × Bool × Nat × Nat) :=
  let c := clearTypesInFunction M f ty
  let ty2 := inferParams M o f c.2
  match fixLoop M o f fuel ty2 with
  | none => none
  | some (ty3, d1, d2) => some (guardPhase c.1 ty3 (guardKeys M f), true, d1, d2)

/-- The function loop of `runOnModule`
(`changed |= runOnFunction(&F)` with a per-function oracle). -/
def runFuncs (M : Module) (oracles : Nat → Oracle) (fuel : Nat) :
    List Nat → Types × Bool × Nat × Nat → Option (Types × Bool × Nat × Nat)
  | [], st => some st
  | f :: rest, (ty, ch, d1, d2) =>
    match runOnFunction M (oracles f) fuel f ty with
    | none => none
    | some (ty1, ch1, e1, e2) =>
      runFuncs M oracles fuel rest (ty1, ch || ch1, d1 + e1, d2 + e2)

/-- `TypeInferenceImpl::runOnModule`: run the pass on every function of
the module in order, instantiating a fresh per-function call-graph
oracle. -/
def runOnModule (M : Module) (oracles : Nat → Oracle) (fuel : Nat) (ty : Types) :
    Option (Types × Bool × Nat × Nat) :=
  runFuncs M oracles fuel (List.range M.funcs.length) (ty, false, 0, 0)

/-! ## Generic folds and claim-side formulations

The definitions below are written from the wording of the spec and of the
claims, to be compared with the embedded code above. -/

/-- The abstract shape of the first-flag accumulation loops of
`inferFunctionReturnType` and `inferBaseCallInst`: skip leading `NoType`
elements, then union everything. -/
def tyFoldFirst : List Ty → Bool × Ty → Bool × Ty
  | [], st => st
  | T :: rest, (first, acc) =>
    if first && !isNoType T then tyFoldFirst rest (false, T)
    else tyFoldFirst rest (first, unionTy acc T)

/-- The abstract shape of the accumulation loop of `propagateArgs`: the
first element replaces the accumulator, later elements are unioned. -/
def tyFoldPlain : List Ty → Bool × Ty → Bool × Ty
  | [], st => st
  | T :: rest, (first, acc) =>
    if first then tyFoldPlain rest (false, T)
    else tyFoldPlain rest (false, unionTy acc T)

/-- Union of a list of types (the empty union is `NoType`, the bottom
element). -/
def foldUnionTy (ts : List Ty) : Ty := ts.foldl unionTy createNoType

/-- The returned values of a list of basic blocks: the operand of every
`Return` terminator. -/
def returnVals (M : Module) (bs : List BasicBlock) : List Value :=
  bs.filterMap fun b =>
    match terminatorOf M b with
    | some (.ret v) => some v
    | _ => none

/-- The returned values of function `f`. -/
def returnValsOf (M : Module) (f : Nat) : List Value :=
  returnVals M (funcAt M f).blocks

/-- Claim-side formulation of §4.4: the union, over all basic blocks
whose terminator is `Return v`, of the type of `v`, with `NoType` values
skipped. -/
def returnClaimTy (M : Module) (ty : Types) (f : Nat) : Ty :=
  foldUnionTy (((returnValsOf M f).map (valueType ty)).filter fun t => !isNoType t)

/-- The contribution of call site `c` to formal parameter index `i`: the
type of the `i`-th actual, or of the literal `undefined` when fewer
arguments are supplied. -/
def argContribution (M : Module) (ty : Types) (c : Nat) (i : Nat) : Ty :=
  valueType ty ((callArgsAt M c).getD i Value.litUndef)

/-- Claim-side formulation of §4.5: the union over all known call-sites
of the type of the `i`-th actual. -/
def paramClaimTy (M : Module) (ty : Types) (callSites : List Nat) (i : Nat) : Ty :=
  foldUnionTy (callSites.map fun c => argContribution M ty c i)

/-- Claim-side formulation of the `Call`/`Construct` rule: `AnyType` when
callees are unknown, otherwise the union of the currently annotated
return types of all known callees. -/
def callClaimTy (o : Oracle) (ty : Types) (ci : Nat) : Ty :=
  if o.hasUnknownCallees ci then createAnyType
  else foldUnionTy ((o.knownCallees ci).map fun g => ty (.fn g))

/-- Claim-side formulation of the `+` rule: `String` if either operand is
the string type; else `Number` if both are number types; else `BigInt` if
both are bigint types; otherwise `numeric` (`Number` unioned with
`BigInt` when both operands can be BigInt) if both operands are
side-effect-free and neither can be a string, and `numeric ∪ String`
otherwise. -/
def addClaimTy (L R : Ty) : Ty :=
  if isStringType L || isStringType R then createString
  else if isNumberType L && isNumberType R then createNumber
  else if isBigIntType L && isBigIntType R then createBigInt
  else
    let numeric :=
      unionTy createNumber
        (if canBeBigInt L && canBeBigInt R then createBigInt else createNoType)
    if isSideEffectFree L && isSideEffectFree R &&
        !canBeString L && !canBeString R then numeric
    else unionTy numeric createString

/-- The stored values of the qualifying known stores of receiver `r`, per
the claim: for an object-allocation receiver only property stores whose
property matches the requested one qualify; for an array-allocation
receiver every stored value qualifies regardless of the index; stores of
receivers of any other kind do not qualify. -/
def lpQualStores (M : Module) (prop : Value) (r : Nat) (stores : List Nat) :
    List Value :=
  stores.filterMap fun s =>
    if isAllocObjectK (instAt M r) then
      match instAt M s with
      | .storeOwnProperty v _ p => if p = prop then some v else none
      | .storeNewOwnProperty v _ p => if p = prop then some v else none
      | .storePropertyLoose v _ p => if p = prop then some v else none
      | .storePropertyStrict v _ p => if p = prop then some v else none
      | _ => none
    else if isAllocArrayK (instAt M r) then
      match instAt M s with
      | .storePropertyLoose v _ _ => some v
      | .storePropertyStrict v _ _ => some v
      | _ => none
    else none

/-- Is some known receiver "bad" in the sense of the claim: it has
unknown stores, or it is an object allocation that does not own the
requested property? -/
def lpAnyBad (M : Module) (o : Oracle) (prop : Value) (rs : List Nat) : Bool :=
  rs.any fun r =>
    o.hasUnknownStores r ||
      (isAllocObjectK (instAt M r) && !isOwnedProperty M r prop)

/-- Claim-side formulation of the `LoadProperty` rule: `AnyType` when the
oracle reports unknown receivers, when some known receiver has unknown
stores, or when a known object-allocation receiver does not own the
requested property; otherwise the union of the stored values' types over
the qualifying known stores, and `AnyType` when no store qualifies. -/
def loadPropClaimTy (M : Module) (o : Oracle) (ty : Types) (i : Nat)
    (prop : Value) : Ty :=
  if o.hasUnknownReceivers i || lpAnyBad M o prop (o.knownReceivers i) then
    createAnyType
  else
    let vals :=
      ((o.knownReceivers i).map fun r => lpQualStores M prop r (o.knownStores r)).flatten
    if vals.isEmpty then createAnyType
    else foldUnionTy (vals.map (valueType ty))

/-- The value-level shape of the store accumulation of
`inferLoadPropertyInst`, threading `(first, retTy, unique)` over the
qualifying stored values. -/
def lpFoldVals (ty : Types) : List Value → Bool × Ty × Bool → Bool × Ty × Bool
  | [], st => st
  | v :: rest, (first, acc, uniq) =>
    if first then lpFoldVals ty rest (false, valueType ty v, uniq)
    else lpFoldVals ty rest (false, unionTy acc (valueType ty v), false)

/-- Claim-side reachability through the tree of PHIs feeding a root PHI:
`PhiReach M root q` holds when PHI `q` is reachable from `root` by
repeatedly following PHI-typed entries. -/
inductive PhiReach (M : Module) (root : Nat) : Nat → Prop where
  | refl : PhiReach M root root
  | step {q r : Nat} : PhiReach M root q → Value.instRef r ∈ phiEntries M q →
      isPhiK (instAt M r) = true → PhiReach M root r

/-- Claim-side formulation of the transitive non-PHI inputs of a PHI: the
non-PHI entries of the PHIs reachable through the tree of PHIs feeding
the root. -/
def PhiInput (M : Module) (root : Nat) (v : Value) : Prop :=
  ∃ q, PhiReach M root q ∧ v ∈ phiEntries M q ∧ isPhiValue M v = false

/-- The `(newTy, foundNoType)` accumulator computed by the value fold of
`inferPhi` over the collected transitive non-PHI inputs, named so the
PHI-rule theorem can speak about it. -/
def phiFoldSt (M : Module) (ty : Types) (i : Nat) : Ty × Bool :=
  ((collectPHIInputs M (M.instrs.length + 1) i ([], [])).2).foldl
    (fun (acc : Ty × Bool) input =>
      (unionTy (valueType ty input) acc.1, acc.2 || isNoType (valueType ty input)))
    (createNoType, false)

/-! ## Concrete inputs for counterexamples and witnesses -/

/-- The all-`NoType` annotation state. -/
def tyNo : Types := fun _ => createNoType

/-- The all-`AnyType` annotation state. -/
def tyAny : Types := fun _ => createAnyType

/-- An oracle that knows nothing (every query answers "unknown"). -/
def noOracle : Oracle :=
  ⟨true, [], fun _ => true, fun _ => [], fun _ => true, fun _ => [],
   fun _ => true, fun _ => []⟩

/-- Extract the post-pass annotation state of a completed run. -/
def postOf : Option (Types × Bool × Nat × Nat) → Types
  | some r => r.1
  | none => tyNo

/-- Extract the `NumTI` increment of a completed run. -/
def numTIOf : Option (Types × Bool × Nat × Nat) → Nat
  | some r => r.2.2.1
  | none => 0

/-- A global-scope function whose single variable is stored the literal
`undefined`; the variable's pre-pass annotation is `Number`. -/
def c1xM : Module :=
  ⟨[⟨[⟨[0, 1]⟩], 0, [0], false, true⟩],
   [(0, .storeFrame .litUndef (.varRef 0)), (1, .ret .litUndef)]⟩

def c1xTy0 : Types := fun k =>
  match k with
  | .var 0 => createNumber
  | .fn 0 => createAnyType
  | _ => createNoType

def c1xRes : Option (Types × Bool × Nat × Nat) := runOnFunction c1xM noOracle 3 0 c1xTy0

/-- A small non-global function (one parameter, one variable, a store and
a return) on which the pass completes; used to instantiate the
hypothesis-bearing whole-pass theorems. -/
def wM : Module :=
  ⟨[⟨[⟨[0, 1]⟩], 1, [0], false, false⟩],
   [(0, .storeFrame (.litNumber 0) (.varRef 0)), (1, .ret (.litNumber 1))]⟩

def wRes : Option (Types × Bool × Nat × Nat) := runOnFunction wM noOracle 3 0 tyAny

/-- A `Mov` of a string literal whose pre-pass annotation is `Number`:
inference produces `String`, and the monotonicity guard intersects it
with `Number`, leaving `NoType` on an instruction that has an output. -/
def c2xM : Module :=
  ⟨[⟨[⟨[0, 1]⟩], 0, [], false, false⟩],
   [(0, .mov (.litString 0)), (1, .ret .litUndef)]⟩

def c2xTy0 : Types := fun k =>
  match k with
  | .inst 0 => createNumber
  | .fn 0 => createAnyType
  | _ => createNoType

def c2xRes : Option (Types × Bool × Nat × Nat) := runOnFunction c2xM noOracle 3 0 c2xTy0

/-- A module with a phi over two literals, for instantiating the PHI
rule. -/
def c5M : Module :=
  ⟨[⟨[⟨[0, 1]⟩], 0, [], false, false⟩],
   [(0, .phi [.litNumber 0, .litString 1]), (1, .ret (.instRef 0))]⟩

/-- An object allocation with a single owned store of a number, loaded
back: the unique-store scenario of the `LoadProperty` rule. -/
def c3M : Module :=
  ⟨[⟨[⟨[0, 1, 2, 3]⟩], 0, [], false, false⟩],
   [(0, .allocObject),
    (1, .storeOwnProperty (.litNumber 7) (.instRef 0) (.litString 5)),
    (2, .loadProperty (.instRef 0) (.litString 5)),
    (3, .ret (.instRef 2))]⟩

def c3o : Oracle :=
  ⟨true, [], fun _ => true, fun _ => [],
   fun i => !(i = 2), fun i => if i = 2 then [0] else [],
   fun r => !(r = 0), fun r => if r = 0 then [1] else []⟩

/-- A function with one formal parameter whose call-sites are known but
empty. -/
def c7M : Module := ⟨[⟨[], 1, [], false, false⟩], []⟩

def c7o : Oracle :=
  ⟨false, [], fun _ => true, fun _ => [], fun _ => true, fun _ => [],
   fun _ => true, fun _ => []⟩

/-- An oracle reporting a single known callee, function 1. -/
def c8o : Oracle :=
  ⟨true, [], fun _ => false, fun ci => if ci = 0 then [1] else [],
   fun _ => true, fun _ => [], fun _ => true, fun _ => []⟩

/-- Two functions: function 0 calls function 1 (per the oracle), and
function 1 returns a number literal.  Function 0 is processed first, so
its call still sees function 1's pre-pass return type. -/
def c9M : Module :=
  ⟨[⟨[⟨[0, 1]⟩], 0, [], false, false⟩, ⟨[⟨[2]⟩], 0, [], false, false⟩],
   [(0, .call .litUndef []), (1, .ret .litUndef), (2, .ret (.litNumber 0))]⟩

def c9oracles : Nat → Oracle := fun f =>
  if f = 0 then
    ⟨true, [], fun _ => false, fun ci => if ci = 0 then [1] else [],
     fun _ => true, fun _ => [], fun _ => true, fun _ => []⟩
  else noOracle

def c9Ty0 : Types := fun k =>
  match k with
  | .inst 0 => createAnyType
  | .fn 0 => createAnyType
  | .fn 1 => createAnyType
  | _ => createNoType

def c9Res1 : Option (Types × Bool × Nat × Nat) := runOnModule c9M c9oracles 3 c9Ty0

def c9Res2 : Option (Types × Bool × Nat × Nat) := runOnModule c9M c9oracles 3 (postOf c9Res1)

/-- The empty module: a run changes nothing, so the outer interprocedural
fixed point is trivially reached. -/
def emptyM : Module := ⟨[], []⟩

/-- A `Catch` instruction whose pre-pass annotation is already `AnyType`:
inference re-derives `AnyType` from scratch, bumping `NumTI` once even
though the final annotation equals the pre-pass one. -/
def c10M : Module :=
  ⟨[⟨[⟨[0, 1]⟩], 0, [], false, false⟩],
   [(0, .catchInst), (1, .ret .litUndef)]⟩

def c10Ty0 : Types := fun k =>
  match k with
  | .inst 0 => createAnyType
  | .fn 0 => createUndefined
  | _ => createNoType

def c10Res : Option (Types × Bool × Nat × Nat) := runOnModule c10M (fun _ => noOracle) 3 c10Ty0

/-! ## Lattice lemmas -/

attribute [ext] Ty

theorem mem_unionTy (a b : Ty) (g : Tag) :
    (unionTy a b).mem g = (a.mem g || b.mem g) := by
  cases g <;> rfl

theorem mem_intersectTy (a b : Ty) (g : Tag) :
    (intersectTy a b).mem g = (a.mem g && b.mem g) := by
  cases g <;> rfl

theorem mem_noType (g : Tag) : createNoType.mem g = false := by
  cases g <;> rfl

theorem eq_of_mem_eq {a b : Ty} (h : ∀ g, a.mem g = b.mem g) : a = b :=
  Ty.ext (h .empty) (h .undef) (h .null) (h .boolean) (h .str) (h .numInt32)
    (h .numUint32) (h .numOther) (h .bigint) (h .object) (h .environment)
    (h .closure) (h .regexp) (h .argumentsTag) (h .arrayTag) (h .symbolTag)

theorem isNoType_iff {t : Ty} : isNoType t = true ↔ t = createNoType := by
  simp [isNoType]

theorem mem_of_not_noType {t : Ty} (h : isNoType t = false) : ∃ g, t.mem g = true := by
  by_contra hc
  push_neg at hc
  have : t = createNoType := eq_of_mem_eq fun g => by
    simpa [mem_noType] using Bool.eq_false_iff.mpr (hc g)
  simp [isNoType_iff.mpr this] at h

theorem noType_of_mem_false {t : Ty} (h : ∀ g, t.mem g = false) : t = createNoType :=
  eq_of_mem_eq fun g => by simp [mem_noType, h g]

theorem mem_false_of_noType {t : Ty} (h : isNoType t = true) (g : Tag) :
    t.mem g = false := by
  rw [isNoType_iff.mp h]; exact mem_noType g

theorem intersectTy_noType_right (t : Ty) :
    intersectTy t createNoType = createNoType :=
  eq_of_mem_eq fun g => by simp [mem_intersectTy, mem_noType]

theorem unionTy_noType_noType :
    unionTy createNoType createNoType = createNoType := by decide

theorem subsetTy_refl (t : Ty) : subsetTy t t := fun _ h => h

theorem subsetTy_intersect_left (a b : Ty) : subsetTy (intersectTy a b) a := by
  intro g h
  rw [mem_intersectTy] at h
  exact (Bool.and_eq_true _ _ |>.mp h).1

/-! ## Update and fold lemmas -/

theorem update_same (ty : Types) (k : VKey) (t : Ty) : update ty k t k = t := by
  simp [update]

theorem update_other (ty : Types) (k k' : VKey) (t : Ty) (h : k' ≠ k) :
    update ty k t k' = ty k' := by
  simp [update, h]

theorem foldl_unionTy_mem (L : List Ty) (acc : Ty) (g : Tag) :
    (L.foldl unionTy acc).mem g = (acc.mem g || L.any fun t => t.mem g) := by
  induction L generalizing acc with
  | nil => simp
  | cons T rest ih => simp [ih, mem_unionTy, Bool.or_assoc]

theorem foldUnionTy_mem (L : List Ty) (g : Tag) :
    (foldUnionTy L).mem g = L.any fun t => t.mem g := by
  simp [foldUnionTy, foldl_unionTy_mem, mem_noType]

theorem tyFoldFirst_false_fst (L : List Ty) (acc : Ty) :
    (tyFoldFirst L (false, acc)).1 = false := by
  induction L generalizing acc with
  | nil => rfl
  | cons T rest ih => simp [tyFoldFirst, ih]

theorem tyFoldFirst_false_mem (L : List Ty) (acc : Ty) (g : Tag) :
    ((tyFoldFirst L (false, acc)).2).mem g = (acc.mem g || L.any fun t => t.mem g) := by
  induction L generalizing acc with
  | nil => simp [tyFoldFirst]
  | cons T rest ih => simp [tyFoldFirst, ih, mem_unionTy, Bool.or_assoc]

theorem tyFoldFirst_true_fst (L : List Ty) :
    (tyFoldFirst L (true, createNoType)).1 = L.all fun t => isNoType t := by
  induction L with
  | nil => rfl
  | cons T rest ih =>
    by_cases h : isNoType T = true
    · rw [isNoType_iff.mp h]
      simpa [tyFoldFirst, unionTy_noType_noType, h] using ih
    · simp only [Bool.not_eq_true] at h
      simp [tyFoldFirst, h, tyFoldFirst_false_fst]

theorem tyFoldFirst_true_mem (L : List Ty) (g : Tag) :
    ((tyFoldFirst L (true, createNoType)).2).mem g = L.any fun t => t.mem g := by
  induction L with
  | nil => simp [tyFoldFirst, mem_noType]
  | cons T rest ih =>
    by_cases h : isNoType T = true
    · have hT := isNoType_iff.mp h
      subst hT
      simpa [tyFoldFirst, unionTy_noType_noType, h, mem_noType] using ih
    · simp only [Bool.not_eq_true] at h
      simp [tyFoldFirst, h, tyFoldFirst_false_mem]

theorem tyFoldPlain_fst (L : List Ty) (first : Bool) (acc : Ty) :
    (tyFoldPlain L (first, acc)).1 = (first && L.isEmpty) := by
  cases L with
  | nil => simp [tyFoldPlain]
  | cons T rest =>
    suffices h : ∀ (L' : List Ty) (acc' : Ty), (tyFoldPlain L' (false, acc')).1 = false by
      cases first <;> simp [tyFoldPlain, h]
    intro L'
    induction L' with
    | nil => intro acc'; rfl
    | cons T' rest' ih => intro acc'; simp [tyFoldPlain, ih]

theorem tyFoldPlain_false_mem (L : List Ty) (acc : Ty) (g : Tag) :
    ((tyFoldPlain L (false, acc)).2).mem g = (acc.mem g || L.any fun t => t.mem g) := by
  induction L generalizing acc with
  | nil => simp [tyFoldPlain]
  | cons T rest ih => simp [tyFoldPlain, ih, mem_unionTy, Bool.or_assoc]

theorem tyFoldPlain_true_mem (T : Ty) (L : List Ty) (acc : Ty) (g : Tag) :
    ((tyFoldPlain (T :: L) (true, acc)).2).mem g = (T :: L).any fun t => t.mem g := by
  simp [tyFoldPlain, tyFoldPlain_false_mem]

theorem any_filter_notNoType (L : List Ty) (g : Tag) :
    ((L.filter fun t => !isNoType t).any fun t => t.mem g) = L.any fun t => t.mem g := by
  induction L with
  | nil => rfl
  | cons T rest ih =>
    by_cases h : isNoType T = true
    · simp [List.filter_cons, h, mem_false_of_noType h, ih]
    · simp only [Bool.not_eq_true] at h
      simp [List.filter_cons, h, ih]

/-! ## Bridges from the embedded loops to the generic folds -/

theorem retFold_eq (M : Module) (ty : Types) (bs : List BasicBlock) (st : Bool × Ty) :
    retFold M ty bs st = tyFoldFirst ((returnVals M bs).map (valueType ty)) st := by
  induction bs generalizing st with
  | nil => rfl
  | cons b rest ih =>
    obtain ⟨first, acc⟩ := st
    simp only [retFold, returnVals, List.filterMap_cons]
    cases h : terminatorOf M b with
    | none => simpa [returnVals] using ih (first, acc)
    | some k => cases k <;> simp [returnVals, tyFoldFirst, ih]

theorem calleeFold_eq (ty : Types) (gs : List Nat) (st : Bool × Ty) :
    calleeFold ty gs st = tyFoldFirst (gs.map fun g => ty (.fn g)) st := by
  induction gs generalizing st with
  | nil => rfl
  | cons gg rest ih =>
    obtain ⟨first, acc⟩ := st
    simp [calleeFold, tyFoldFirst, ih]

theorem argFold_eq (M : Module) (ty : Types) (i : Nat) (cs : List Nat) (st : Bool × Ty) :
    argFold M ty i cs st = tyFoldPlain (cs.map fun c => argContribution M ty c i) st := by
  induction cs generalizing st with
  | nil => rfl
  | cons c rest ih =>
    obtain ⟨first, acc⟩ := st
    simp [argFold, tyFoldPlain, ih, argContribution]

/-! ## C6: function return-type inference -/

/-- C6: for a generator-inner function the inferred return type is
unconditionally `AnyType`; for every other function it is the union, over
all basic blocks whose terminator is `Return v`, of the type of `v`, with
`NoType` return-value types skipped; and the step reports a change
exactly when the written return type differs from the previous one. -/
theorem C6_function_return_type (M : Module) (ty : Types) (f : Nat) :
    (inferFunctionReturnType M ty f).1 (VKey.fn f) =
      (if (funcAt M f).isGeneratorInner = true then createAnyType
       else returnClaimTy M ty f) ∧
    ((inferFunctionReturnType M ty f).2 = true ↔
      (inferFunctionReturnType M ty f).1 (VKey.fn f) ≠ ty (VKey.fn f)) := by
  have hty : (if (funcAt M f).isGeneratorInner then createAnyType
      else (retFold M ty (funcAt M f).blocks (true, createNoType)).2) =
      (if (funcAt M f).isGeneratorInner = true then createAnyType
       else returnClaimTy M ty f) := by
    cases hg : (funcAt M f).isGeneratorInner
    · simp only [hg, if_false, Bool.false_eq_true]
      apply eq_of_mem_eq
      intro g
      rw [retFold_eq, tyFoldFirst_true_mem]
      unfold returnClaimTy returnValsOf
      rw [foldUnionTy_mem, any_filter_notNoType]
    · simp [hg]
  simp only [inferFunctionReturnType]
  by_cases hc : (if (funcAt M f).isGeneratorInner then createAnyType
      else (retFold M ty (funcAt M f).blocks (true, createNoType)).2) = ty (VKey.fn f)
  · rw [if_pos hc]
    refine ⟨?_, by simp⟩
    rw [← hty, hc]
  · rw [if_neg hc]
    dsimp only
    refine ⟨?_, ?_⟩
    · rw [update_same, hty]
    · rw [update_same]
      exact ⟨fun _ => hc, fun _ => rfl⟩

/-! ## C4: the addition transfer rule -/

/-- C4: for every `+` instruction with operand types `L` and `R`, the
result is `String` if either operand is the string type; else `Number` if
both are number types; else `BigInt` if both are bigint types; otherwise
`numeric` (`Number` unioned with BigInt-when-both-canBeBigInt) if `L` and
`R` are both side-effect-free and neither can be a string, and
`numeric ∪ String` otherwise; in particular two `AnyType` operands give
`Number ∪ BigInt ∪ String`. -/
theorem C4_addition_rule :
    (∀ (ty : Types) (l r : Value),
      inferBinaryInst ty .add l r = addClaimTy (valueType ty l) (valueType ty r)) ∧
    inferBinaryAdd createAnyType createAnyType =
      unionTy (unionTy createNumber createBigInt) createString := by
  constructor
  · intro ty l r; rfl
  · decide

/-! ## C8: the call transfer rule -/

/-- C8 (amended): for every `Call` or `Construct`, unknown callees give
`AnyType`; otherwise, when every known callee's annotated return type is
`NoType` (in particular when there are no known callees) the result is
`AnyType`, and otherwise it is the union of the known callees' annotated
return types; `CallBuiltin` and `HBCCallN` are inferred as `AnyType`. -/
theorem C8_call_rule (M : Module) (o : Oracle) (ty : Types) (i : Nat) :
    (inferBaseCallInst o ty i =
      if o.hasUnknownCallees i then createAnyType
      else if (o.knownCallees i).all (fun g => isNoType (ty (.fn g))) then createAnyType
      else callClaimTy o ty i) ∧
    (∀ args, dispatchInfer M o ty i (.callBuiltin args) = some (createAnyType, 0)) ∧
    (∀ c args, dispatchInfer M o ty i (.hbcCallN c args) = some (createAnyType, 0)) ∧
    (∀ c args, dispatchInfer M o ty i (.call c args) = some (inferBaseCallInst o ty i, 0)) ∧
    (∀ c args, dispatchInfer M o ty i (.construct c args) = some (inferBaseCallInst o ty i, 0)) := by
  refine ⟨?_, fun _ => rfl, fun _ _ => rfl, fun _ _ => rfl, fun _ _ => rfl⟩
  unfold inferBaseCallInst
  by_cases hu : o.hasUnknownCallees i
  · simp [hu]
  · simp only [hu, if_false, Bool.false_eq_true]
    rw [calleeFold_eq]
    by_cases hall : (o.knownCallees i).all (fun g => isNoType (ty (.fn g))) = true
    · have h1 : (tyFoldFirst ((o.knownCallees i).map fun g => ty (.fn g))
          (true, createNoType)).1 = true := by
        rw [tyFoldFirst_true_fst]
        simpa [List.all_map, Function.comp] using hall
      simp [h1, hall]
    · have h1 : (tyFoldFirst ((o.knownCallees i).map fun g => ty (.fn g))
          (true, createNoType)).1 = false := by
        rw [tyFoldFirst_true_fst]
        simpa [List.all_map, Function.comp] using Bool.not_eq_true _ |>.mp hall
      simp only [h1, Bool.not_false, if_true, Bool.false_eq_true, if_false, hall]
      apply eq_of_mem_eq
      intro g
      rw [tyFoldFirst_true_mem]
      unfold callClaimTy
      simp [hu, foldUnionTy_mem]

/-- C8 counterexample: with a single known callee whose annotated return
type is `NoType`, the claim's "union of the return types of all known
callees" is `NoType`, but the code returns `AnyType`. -/
theorem C8_counterexample :
    inferBaseCallInst c8o tyNo 0 = createAnyType ∧
    callClaimTy c8o tyNo 0 = createNoType ∧
    createAnyType ≠ createNoType := by decide

/-! ## C7: parameter inference -/

theorem setParamsAny_other (f : Nat) (ty : Types) (L : List Nat) (k : VKey)
    (h : ∀ i ∈ L, k ≠ VKey.par f i) : setParamsAny f ty L k = ty k := by
  induction L generalizing ty with
  | nil => rfl
  | cons i rest ih =>
    rw [setParamsAny, ih _ fun j hj => h j (List.mem_cons_of_mem _ hj)]
    exact update_other _ _ _ _ (h i (List.mem_cons_self _ _))

theorem setParamsAny_mem (f : Nat) (ty : Types) (L : List Nat) (i : Nat)
    (h : i ∈ L) : setParamsAny f ty L (VKey.par f i) = createAnyType := by
  induction L generalizing ty with
  | nil => cases h
  | cons j rest ih =>
    rw [setParamsAny]
    by_cases hij : i ∈ rest
    · exact ih _ hij
    · have hj : i = j := by
        rcases List.mem_cons.mp h with h' | h'
        · exact h'
        · exact absurd h' hij
      subst hj
      rw [setParamsAny_other, update_same]
      intro i' hi' heq
      rw [VKey.par.injEq] at heq
      exact hij (heq.2 ▸ hi')

theorem valueType_stable (f : Nat) (ty ty' : Types)
    (hagree : ∀ k, (∀ j, k ≠ VKey.par f j) → ty' k = ty k)
    (v : Value) (hv : ∀ j, v ≠ Value.paramRef f j) :
    valueType ty' v = valueType ty v := by
  cases v with
  | instRef n => exact hagree _ fun j => by simp
  | paramRef f' i' =>
    refine hagree _ fun j heq => ?_
    rw [VKey.par.injEq] at heq
    exact hv i' (by rw [heq.1])
  | varRef n => exact hagree _ fun j => by simp
  | litUndef => rfl
  | litNull => rfl
  | litBool b => rfl
  | litNumber p => rfl
  | litString p => rfl
  | litEmpty => rfl

theorem argContribution_stable (M : Module) (f : Nat) (ty ty' : Types) (c i : Nat)
    (hagree : ∀ k, (∀ j, k ≠ VKey.par f j) → ty' k = ty k)
    (hH : ∀ j, Value.paramRef f j ∉ callArgsAt M c) :
    argContribution M ty' c i = argContribution M ty c i := by
  unfold argContribution
  apply valueType_stable f ty ty' hagree
  intro j heq
  by_cases hlen : i < (callArgsAt M c).length
  · rw [List.getD_eq_getElem?_getD, List.getElem?_eq_getElem hlen] at heq
    exact hH j (heq ▸ List.getElem_mem hlen)
  · rw [List.getD_eq_getElem?_getD, List.getElem?_eq_none (Nat.le_of_not_lt hlen)] at heq
    cases heq

theorem argFold_stable (M : Module) (f : Nat) (ty ty' : Types) (i : Nat)
    (cs : List Nat) (st : Bool × Ty)
    (hagree : ∀ k, (∀ j, k ≠ VKey.par f j) → ty' k = ty k)
    (hH : ∀ c ∈ cs, ∀ j, Value.paramRef f j ∉ callArgsAt M c) :
    argFold M ty' i cs st = argFold M ty i cs st := by
  rw [argFold_eq, argFold_eq]
  congr 1
  exact List.map_congr_left fun c hc =>
    argContribution_stable M f ty ty' c i hagree (hH c hc)

theorem propagateArgsLoop_other (M : Module) (cs : List Nat) (f : Nat)
    (ty : Types) (L : List Nat) (k : VKey) (h : ∀ j ∈ L, k ≠ VKey.par f j) :
    propagateArgsLoop M cs f ty L k = ty k := by
  induction L generalizing ty with
  | nil => rfl
  | cons i rest ih =>
    rw [propagateArgsLoop]
    rw [ih _ fun j hj => h j (List.mem_cons_of_mem _ hj)]
    split <;> exact update_other _ _ _ _ (h i (List.mem_cons_self _ _))

theorem propagateArgsLoop_mem (M : Module) (cs : List Nat) (f : Nat)
    (L : List Nat) (i : Nat)
    (hH : ∀ c ∈ cs, ∀ j, Value.paramRef f j ∉ callArgsAt M c) :
    ∀ ty : Types, L.Nodup → i ∈ L →
      propagateArgsLoop M cs f ty L (VKey.par f i) =
        (if (argFold M ty i cs (true, createNoType)).1 then createAnyType
         else (argFold M ty i cs (true, createNoType)).2) := by
  induction L with
  | nil =>
    intro ty _ hi
    cases hi
  | cons i0 rest ih =>
    intro ty hnd hi
    rw [propagateArgsLoop]
    set ty1 := (if (argFold M ty i0 cs (true, createNoType)).1 = true then
        update ty (VKey.par f i0) createAnyType
      else update ty (VKey.par f i0) (argFold M ty i0 cs (true, createNoType)).2)
      with hty1
    have hagree : ∀ k, (∀ j, k ≠ VKey.par f j) → ty1 k = ty k := by
      intro k hk
      rw [hty1]
      split <;> exact update_other _ _ _ _ (hk i0)
    by_cases hmem : i ∈ rest
    · rw [ih ty1 (List.Nodup.of_cons hnd) hmem,
        argFold_stable M f ty ty1 i cs _ hagree hH]
    · have hii : i = i0 := by
        rcases List.mem_cons.mp hi with h' | h'
        · exact h'
        · exact absurd h' hmem
      subst hii
      have hother : ∀ j ∈ rest, VKey.par f i ≠ VKey.par f j := by
        intro j hj heq
        rw [VKey.par.injEq] at heq
        exact hmem (heq.2 ▸ hj)
      rw [propagateArgsLoop_other M cs f ty1 rest _ hother, hty1]
      split <;> rw [update_same]

/-- C7 (amended): if a function's call-sites are unknown to the oracle
then every formal parameter is set to `AnyType`; otherwise, when the set
of known call-sites is empty every formal parameter is also set to
`AnyType`, and when it is non-empty each formal parameter at index `i` is
set to the union over all known call-sites of the type of the `i`-th
actual argument, a call-site that supplies fewer than `i+1` arguments
contributing the type of the literal `Undefined`.  (The hypothesis `hH`
reflects that actual arguments are never raw formal parameters of the
inferred function itself — parameters are read through `LoadParam`.) -/
theorem C7_parameter_rule (M : Module) (o : Oracle) (f : Nat) (ty : Types) (i : Nat)
    (hH : ∀ c ∈ o.knownCallsites, ∀ j, Value.paramRef f j ∉ callArgsAt M c)
    (hi : i < (funcAt M f).paramCount) :
    inferParams M o f ty (VKey.par f i) =
      (if o.hasUnknownCallsites then createAnyType
       else if o.knownCallsites.isEmpty then createAnyType
       else paramClaimTy M ty o.knownCallsites i) := by
  unfold inferParams
  by_cases hu : o.hasUnknownCallsites = true
  · rw [if_pos hu, if_pos hu]
    exact setParamsAny_mem f ty _ i (List.mem_range.mpr hi)
  · rw [if_neg hu, if_neg hu]
    unfold propagateArgs
    rw [propagateArgsLoop_mem M _ f _ i hH ty (List.nodup_range _)
      (List.mem_range.mpr hi)]
    rw [argFold_eq]
    cases hcs : o.knownCallsites with
    | nil => simp [tyFoldPlain]
    | cons c rest =>
      have h1 : ((c :: rest).map fun c' => argContribution M ty c' i) =
          argContribution M ty c i :: (rest.map fun c' => argContribution M ty c' i) :=
        rfl
      rw [h1]
      have hfst : (tyFoldPlain
          (argContribution M ty c i :: (rest.map fun c' => argContribution M ty c' i))
          (true, createNoType)).1 = false := by
        rw [tyFoldPlain_fst]
        rfl
      rw [hfst]
      simp only [Bool.false_eq_true, if_false, List.isEmpty_cons]
      apply eq_of_mem_eq
      intro g
      rw [tyFoldPlain_true_mem]
      unfold paramClaimTy
      rw [foldUnionTy_mem, h1]

/-- C7 counterexample: a function with one formal parameter whose
call-sites are known but empty: the claim's union over all known
call-sites is the empty union `NoType`, but the code sets the parameter
to `AnyType`. -/
theorem C7_counterexample :
    inferParams c7M c7o 0 tyNo (VKey.par 0 0) = createAnyType ∧
    paramClaimTy c7M tyNo c7o.knownCallsites 0 = createNoType ∧
    createAnyType ≠ createNoType := by decide

/-- Witness for C7: the amended parameter rule applied to a concrete
function with known but empty call-sites. -/
theorem C7_witness :
    (∀ c ∈ c7o.knownCallsites, ∀ j, Value.paramRef 0 j ∉ callArgsAt c7M c) ∧
    0 < (funcAt c7M 0).paramCount ∧
    inferParams c7M c7o 0 tyNo (VKey.par 0 0) =
      (if c7o.hasUnknownCallsites then createAnyType
       else if c7o.knownCallsites.isEmpty then createAnyType
       else paramClaimTy c7M tyNo c7o.knownCallsites 0) :=
  ⟨by simp [c7o], by decide,
    C7_parameter_rule c7M c7o 0 tyNo 0 (by simp [c7o]) (by decide)⟩

/-! ## C3: the LoadProperty transfer rule -/

theorem lpFoldVals_append (ty : Types) (L1 L2 : List Value) (st : Bool × Ty × Bool) :
    lpFoldVals ty (L1 ++ L2) st = lpFoldVals ty L2 (lpFoldVals ty L1 st) := by
  induction L1 generalizing st with
  | nil => rfl
  | cons v rest ih =>
    obtain ⟨first, acc, uniq⟩ := st
    rw [List.cons_append, lpFoldVals, lpFoldVals]
    split <;> exact ih _

theorem lpFoldVals_false_fst (ty : Types) (L : List Value) (acc : Ty) (u : Bool) :
    (lpFoldVals ty L (false, acc, u)).1 = false := by
  induction L generalizing acc u with
  | nil => rfl
  | cons v rest ih => simp [lpFoldVals, ih]

theorem lpFoldVals_true_fst (ty : Types) (L : List Value) (acc : Ty) (u : Bool) :
    (lpFoldVals ty L (true, acc, u)).1 = L.isEmpty := by
  cases L with
  | nil => rfl
  | cons v rest => simp [lpFoldVals, lpFoldVals_false_fst]

theorem lpFoldVals_false_mem (ty : Types) (L : List Value) (acc : Ty) (u : Bool) (g : Tag) :
    ((lpFoldVals ty L (false, acc, u)).2.1).mem g =
      (acc.mem g || L.any fun v => (valueType ty v).mem g) := by
  induction L generalizing acc u with
  | nil => simp [lpFoldVals]
  | cons v rest ih => simp [lpFoldVals, ih, mem_unionTy, Bool.or_assoc]

theorem lpFoldVals_true_mem (ty : Types) (v : Value) (L : List Value) (acc : Ty)
    (u : Bool) (g : Tag) :
    ((lpFoldVals ty (v :: L) (true, acc, u)).2.1).mem g =
      (v :: L).any fun v' => (valueType ty v').mem g := by
  simp [lpFoldVals, lpFoldVals_false_mem]

theorem lpStores_eq (M : Module) (ty : Types) (rIsObj rIsArr : Bool) (prop : Value) :
    ∀ (ss : List Nat) (st st' : Bool × Ty × Bool),
      lpStores M ty rIsObj rIsArr prop ss st = some st' →
      st' = lpFoldVals ty
        (ss.filterMap fun s =>
          match lpStoreVal rIsObj rIsArr prop (instAt M s) with
          | some (some v) => some v
          | _ => none) st := by
  intro ss
  induction ss with
  | nil =>
    intro st st' h
    cases h
    rfl
  | cons s rest ih =>
    intro st st' h
    obtain ⟨first, acc, uniq⟩ := st
    rw [lpStores] at h
    rw [List.filterMap_cons]
    cases hsv : lpStoreVal rIsObj rIsArr prop (instAt M s) with
    | none => rw [hsv] at h; cases h
    | some ov =>
      rw [hsv] at h
      cases ov with
      | none => exact ih _ _ h
      | some v =>
        cases first with
        | true =>
          simp only [if_pos rfl] at h
          rw [lpFoldVals]
          exact ih _ _ h
        | false =>
          simp only [Bool.false_eq_true, if_false] at h
          rw [lpFoldVals]
          exact ih _ _ h

theorem lpQualStores_eq (M : Module) (prop : Value) (r : Nat) (ss : List Nat) :
    lpQualStores M prop r ss = ss.filterMap fun s =>
      match lpStoreVal (isAllocObjectK (instAt M r)) (isAllocArrayK (instAt M r))
          prop (instAt M s) with
      | some (some v) => some v
      | _ => none := by
  unfold lpQualStores
  congr 1
  funext s
  unfold lpStoreVal
  cases hobj : isAllocObjectK (instAt M r) <;>
    cases harr : isAllocArrayK (instAt M r) <;>
      simp only [Bool.false_eq_true, Bool.true_eq_false, if_false, if_true] <;>
        cases instAt M s <;>
          first
            | rfl
            | (rename_i v o p; by_cases hp : p = prop <;> simp [hp])

theorem lpReceivers_bad (M : Module) (o : Oracle) (ty : Types) (prop : Value) :
    ∀ (rs : List Nat) (st : Bool × Ty × Bool) (res : Ty ⊕ (Bool × Ty × Bool)),
      lpReceivers M o ty prop rs st = some res →
      lpAnyBad M o prop rs = true →
      res = .inl createAnyType := by
  intro rs
  induction rs with
  | nil =>
    intro st res h hbad
    cases hbad
  | cons r rest ih =>
    intro st res h hbad
    rw [lpReceivers] at h
    by_cases hu : o.hasUnknownStores r = true
    · rw [if_pos hu] at h
      cases h
      rfl
    · rw [if_neg hu] at h
      by_cases hown : (isAllocObjectK (instAt M r) && !isOwnedProperty M r prop) = true
      · rw [if_pos hown] at h
        cases h
        rfl
      · rw [if_neg hown] at h
        have hbadrest : lpAnyBad M o prop rest = true := by
          have := hbad
          unfold lpAnyBad at this ⊢
          rw [List.any_cons] at this
          rcases Bool.or_eq_true _ _ |>.mp this with h' | h'
          · rcases Bool.or_eq_true _ _ |>.mp h' with h'' | h''
            · exact absurd h'' hu
            · exact absurd h'' hown
          · exact h'
        cases hls : lpStores M ty (isAllocObjectK (instAt M r))
            (isAllocArrayK (instAt M r)) prop (o.knownStores r) st with
        | none => rw [hls] at h; cases h
        | some st' =>
          rw [hls] at h
          exact ih _ _ h hbadrest

theorem lpReceivers_ok (M : Module) (o : Oracle) (ty : Types) (prop : Value) :
    ∀ (rs : List Nat) (st : Bool × Ty × Bool) (res : Ty ⊕ (Bool × Ty × Bool)),
      lpReceivers M o ty prop rs st = some res →
      lpAnyBad M o prop rs = false →
      res = .inr (lpFoldVals ty
        ((rs.map fun r => lpQualStores M prop r (o.knownStores r)).flatten) st) := by
  intro rs
  induction rs with
  | nil =>
    intro st res h _
    cases h
    rfl
  | cons r rest ih =>
    intro st res h hbad
    unfold lpAnyBad at hbad
    rw [List.any_cons] at hbad
    rcases Bool.or_eq_false_iff.mp hbad with ⟨hhead, hrest⟩
    rcases Bool.or_eq_false_iff.mp hhead with ⟨hu, hown⟩
    rw [lpReceivers, if_neg (by simp [hu]), if_neg (by simp [hown])] at h
    cases hls : lpStores M ty (isAllocObjectK (instAt M r))
        (isAllocArrayK (instAt M r)) prop (o.knownStores r) st with
    | none => rw [hls] at h; cases h
    | some st' =>
      rw [hls] at h
      have hst' : st' = lpFoldVals ty (lpQualStores M prop r (o.knownStores r)) st := by
        rw [lpQualStores_eq]
        exact lpStores_eq M ty _ _ prop _ st st' hls
      rw [List.map_cons, List.flatten_cons, lpFoldVals_append, ← hst']
      exact ih _ _ h hrest

theorem any_valueType_map (ty : Types) (L : List Value) (g : Tag) :
    ((L.map (valueType ty)).any fun t => t.mem g) =
      L.any fun v => (valueType ty v).mem g := by
  induction L with
  | nil => rfl
  | cons v rest ih => simp [ih]

/-- C3: for every `LoadProperty` instruction, the inferred type is
`AnyType` when the oracle reports unknown receivers, when some known
receiver has unknown stores, or when a known object-allocation receiver
does not own the requested property; otherwise it is the union of the
stored values' types over qualifying known stores — for an
object-allocation receiver only stores whose property matches the
requested one qualify, for an array-allocation receiver every stored
value qualifies regardless of the index — and `AnyType` when no store
qualifies.  (The hypothesis requires the instruction not to hit the fatal
`assert(storeVal != nullptr)`.) -/
theorem C3_load_property_rule (M : Module) (o : Oracle) (ty : Types) (i : Nat)
    (prop : Value) (pr : Ty × Nat)
    (h : inferLoadPropertyInst M o ty i prop = some pr) :
    pr.1 = loadPropClaimTy M o ty i prop := by
  unfold inferLoadPropertyInst at h
  unfold loadPropClaimTy
  by_cases hu : o.hasUnknownReceivers i = true
  · rw [if_pos hu] at h
    cases h
    simp [hu]
  · have hu' : o.hasUnknownReceivers i = false := by simpa using hu
    rw [if_neg hu] at h
    cases hlp : lpReceivers M o ty prop (o.knownReceivers i)
        (true, createNoType, true) with
    | none =>
      rw [hlp] at h
      cases h
    | some res =>
      rw [hlp] at h
      by_cases hbad : lpAnyBad M o prop (o.knownReceivers i) = true
      · have hres := lpReceivers_bad M o ty prop _ _ _ hlp hbad
        subst hres
        cases h
        simp [hu', hbad]
      · have hbad' : lpAnyBad M o prop (o.knownReceivers i) = false := by
          simpa using hbad
        have hres := lpReceivers_ok M o ty prop _ _ _ hlp hbad'
        subst hres
        simp only [hu', hbad', Bool.or_self, Bool.false_eq_true, if_false]
        cases hv : ((o.knownReceivers i).map fun r =>
            lpQualStores M prop r (o.knownStores r)).flatten with
        | nil =>
          rw [hv] at h
          simp only [lpFoldVals, Bool.not_true, Bool.false_eq_true, if_false] at h
          cases h
          simp
        | cons v L =>
          rw [hv] at h
          rcases hst : lpFoldVals ty (v :: L) (true, createNoType, true) with
            ⟨first, acc, uniq⟩
          rw [hst] at h
          have hfirst : first = false := by
            have hf := lpFoldVals_true_fst ty (v :: L) createNoType true
            rw [hst] at hf
            simpa using hf
          subst hfirst
          simp only [Bool.not_false, if_true] at h
          cases h
          simp only [List.isEmpty_cons, Bool.false_eq_true, if_false]
          apply eq_of_mem_eq
          intro g
          have hmem := lpFoldVals_true_mem ty v L createNoType true g
          rw [hst] at hmem
          rw [foldUnionTy_mem, any_valueType_map]
          exact hmem

/-- Witness for C3: the rule applied to an object allocation with a
single owned store of a number literal, loaded back. -/
theorem C3_witness :
    ∃ pr, inferLoadPropertyInst c3M c3o tyNo 2 (Value.litString 5) = some pr ∧
      pr.1 = loadPropClaimTy c3M c3o tyNo 2 (Value.litString 5) :=
  ⟨_, rfl, C3_load_property_rule c3M c3o tyNo 2 (Value.litString 5) _ rfl⟩

/-! ## C10: the NumTI counter -/

/-- C10 (amended): one `inferInstruction` step increments `NumTI` by one
exactly when it is a non-PHI step that changes the instruction's current
annotation (PHI steps and skipped steps never increment it), and the step
mutates no annotation other than the processed instruction's own. -/
theorem C10_numTI_rule (M : Module) (o : Oracle) (ty : Types) (i : Nat)
    (r : Types × Bool × Nat × Nat)
    (h : inferInstruction M o ty i = some r) :
    r.2.2.1 = (if isPhiK (instAt M i) then 0
               else if r.1 (VKey.inst i) = ty (VKey.inst i) then 0 else 1) ∧
    (∀ k, k ≠ VKey.inst i → r.1 k = ty k) := by
  unfold inferInstruction at h
  revert h
  generalize hk : instAt M i = K
  intro h
  cases K
  case phi entries =>
    dsimp only at h
    cases h
    refine ⟨by simp [isPhiK], fun k hkne => ?_⟩
    show (inferPhi M ty i entries).1 k = ty k
    unfold inferPhi
    split
    · rfl
    · exact update_other _ _ _ _ hkne
  all_goals (
    dsimp only at h
    split at h
    · cases h
      exact ⟨by simp [isPhiK], fun k hkne => rfl⟩
    · split at h
      · exact absurd h (by simp)
      · split at h
        · cases h
          exact ⟨by simp [isPhiK], fun k hkne => rfl⟩
        · rename_i hne
          cases h
          exact ⟨by simp [isPhiK, update_same, hne],
            fun k hkne => update_other _ _ _ _ hkne⟩)

/-- C10 counterexample: over one full run of the pass on a module whose
only typed instruction is a `Catch` pre-annotated `AnyType`, `NumTI`
increases by 1 although no instruction's final annotation differs from
its saved pre-pass annotation. -/
theorem C10_counterexample :
    c10Res.isSome = true ∧
    numTIOf c10Res = 1 ∧
    postOf c10Res (VKey.inst 0) = c10Ty0 (VKey.inst 0) ∧
    postOf c10Res (VKey.inst 1) = c10Ty0 (VKey.inst 1) ∧
    (1 : Nat) ≠ 0 := by decide

/-- Witness for C10: the amended counter rule applied to a concrete
`Catch` instruction. -/
theorem C10_witness :
    ∃ r, inferInstruction c10M noOracle tyNo 0 = some r ∧
      (r.2.2.1 = (if isPhiK (instAt c10M 0) then 0
                  else if r.1 (VKey.inst 0) = tyNo (VKey.inst 0) then 0 else 1) ∧
       ∀ k, k ≠ VKey.inst 0 → r.1 k = tyNo k) :=
  ⟨_, rfl, C10_numTI_rule c10M noOracle tyNo 0 _ rfl⟩

/-! ## C9: idempotence of the module pass -/

/-- C9 counterexample: running `runOnModule` twice with no intervening IR
mutation changes the call instruction's annotation on the second run —
the first run still saw the callee's pre-pass return type, the second
sees its inferred one. -/
theorem C9_counterexample :
    c9Res1.isSome = true ∧ c9Res2.isSome = true ∧
    postOf c9Res2 (VKey.inst 0) ≠ postOf c9Res1 (VKey.inst 0) := by decide

/-- C9 (amended): the module pass is idempotent once the outer
interprocedural fixed point has been reached: when a run leaves every
annotation unchanged, running it again produces exactly the same result. -/
theorem C9_idempotence_at_fixpoint (M : Module) (oracles : Nat → Oracle)
    (fuel : Nat) (ty : Types) (res : Types × Bool × Nat × Nat)
    (h1 : runOnModule M oracles fuel ty = some res) (h2 : res.1 = ty) :
    runOnModule M oracles fuel res.1 = some res := by
  rw [h2]
  exact h1

/-- Witness for C9: the empty module is at the interprocedural fixed
point. -/
theorem C9_witness :
    runOnModule emptyM (fun _ => noOracle) 1 tyNo = some (tyNo, false, 0, 0) ∧
    ((tyNo, false, 0, 0) : Types × Bool × Nat × Nat).1 = tyNo ∧
    runOnModule emptyM (fun _ => noOracle) 1
        ((tyNo, false, 0, 0) : Types × Bool × Nat × Nat).1 =
      some (tyNo, false, 0, 0) :=
  ⟨rfl, rfl, C9_idempotence_at_fixpoint emptyM (fun _ => noOracle) 1 tyNo _ rfl rfl⟩

/-! ## The converged state of the fixed point (for C1 and C2) -/

/-- An `inferInstruction` step that reports "unchanged" leaves every
annotation where it was (a PHI rewrites its own annotation with an equal
value). -/
theorem inferInstruction_false_eq (M : Module) (o : Oracle) (ty : Types) (i : Nat)
    (r : Types × Bool × Nat × Nat) (h : inferInstruction M o ty i = some r)
    (hch : r.2.1 = false) : ∀ k, r.1 k = ty k := by
  unfold inferInstruction at h
  revert h
  generalize hk : instAt M i = K
  intro h
  cases K
  case phi entries =>
    dsimp only at h
    cases h
    intro k
    simp only at hch
    show (inferPhi M ty i entries).1 k = ty k
    unfold inferPhi at hch ⊢
    split at hch
    · rename_i hc
      rw [if_pos hc]
    · rename_i hc
      rw [if_neg hc]
      dsimp only at hch ⊢
      rcases Bool.or_eq_false_iff.mp hch with ⟨hd, _⟩
      have hst := not_ne_iff.mp (of_decide_eq_false hd)
      by_cases hk2 : k = VKey.inst i
      · subst hk2
        rw [update_same]
        exact hst
      · exact update_other _ _ _ _ hk2
  all_goals (
    dsimp only at h
    split at h
    · cases h
      exact absurd hch (by simp)
    · split at h
      · exact absurd h (by simp)
      · split at h
        · cases h
          exact fun k => rfl
        · cases h
          exact absurd hch (by simp))

/-- At an "unchanged" `inferInstruction` step, an instruction without an
output is annotated `NoType`: its transfer function constantly produces
`NoType` and the step found it equal to the current annotation. -/
theorem inferInstruction_false_noOutput (M : Module) (o : Oracle) (ty : Types)
    (i : Nat) (r : Types × Bool × Nat × Nat) (h : inferInstruction M o ty i = some r)
    (hch : r.2.1 = false) (hout : hasOutputK (instAt M i) = false) :
    ty (VKey.inst i) = createNoType := by
  unfold inferInstruction at h
  revert h hout
  generalize hk : instAt M i = K
  intro h hout
  cases K
  all_goals first
    | exact Bool.noConfusion hout
    | (dsimp only at h
       split at h
       · cases h
         exact absurd hch (by simp)
       · simp only [dispatchInfer] at h
         split at h
         · rename_i heq
           cases h
           exact heq.symm
         · cases h
           exact absurd hch (by simp))

/-- The instruction loop reporting no change leaves the state pointwise
unchanged, and leaves every no-output instruction of the list annotated
`NoType`. -/
theorem inferInsts_false (M : Module) (o : Oracle) :
    ∀ (L : List Nat) (ty : Types) (r : Types × Bool × Nat × Nat),
      inferInsts M o L ty = some r → r.2.1 = false →
      (∀ k, r.1 k = ty k) ∧
      (∀ i ∈ L, hasOutputK (instAt M i) = false →
        ty (VKey.inst i) = createNoType) := by
  intro L
  induction L with
  | nil =>
    intro ty r h _
    cases h
    exact ⟨fun k => rfl, fun i hi => absurd hi (List.not_mem_nil _)⟩
  | cons i rest ih =>
    intro ty r h hch
    rw [inferInsts] at h
    cases h1 : inferInstruction M o ty i with
    | none => rw [h1] at h; cases h
    | some r1 =>
      rw [h1] at h
      obtain ⟨ty1, ch, d1, d2⟩ := r1
      dsimp only at h
      cases h2 : inferInsts M o rest ty1 with
      | none => rw [h2] at h; cases h
      | some r2 =>
        rw [h2] at h
        obtain ⟨ty2, ch2, e1, e2⟩ := r2
        cases h
        simp only at hch
        rcases Bool.or_eq_false_iff.mp hch with ⟨hcf, hc2f⟩
        subst hcf
        have hpt1 : ∀ k, ty1 k = ty k :=
          inferInstruction_false_eq M o ty i _ h1 rfl
        have hrest := ih ty1 (ty2, ch2, e1, e2) h2 hc2f
        refine ⟨fun k => (hrest.1 k).trans (hpt1 k), ?_⟩
        intro j hj hout
        rcases List.mem_cons.mp hj with hj' | hj'
        · subst hj'
          exact inferInstruction_false_noOutput M o ty j _ h1 rfl hout
        · rw [← hpt1 (VKey.inst j)]
          exact hrest.2 j hj' hout

/-- A return-type step reporting no change leaves the state unchanged. -/
theorem inferFunctionReturnType_false (M : Module) (ty : Types) (f : Nat)
    (h : (inferFunctionReturnType M ty f).2 = false) :
    (inferFunctionReturnType M ty f).1 = ty := by
  unfold inferFunctionReturnType at h ⊢
  dsimp only at h ⊢
  by_cases hc : (if (funcAt M f).isGeneratorInner = true then createAnyType
      else (retFold M ty (funcAt M f).blocks (true, createNoType)).2) = ty (VKey.fn f)
  · rw [if_pos hc]
  · rw [if_neg hc] at h
    cases h

/-- A memory-slot step reporting no change leaves the state unchanged. -/
theorem inferMemoryType_false (M : Module) (ty : Types) (v : Nat)
    (h : (inferMemoryType M ty v).2 = false) :
    (inferMemoryType M ty v).1 = ty := by
  unfold inferMemoryType at h ⊢
  by_cases hc : inferMemoryLocationType M ty (Value.varRef v) = ty (VKey.var v)
  · rw [if_pos hc]
  · rw [if_neg hc] at h
    cases h

/-- The changed flag of the variable loop only accumulates. -/
theorem inferVars_true (M : Module) :
    ∀ (L : List Nat) (ty : Types), (inferVars M L (ty, true)).2 = true := by
  intro L
  induction L with
  | nil =>
    intro ty
    rfl
  | cons v rest ih =>
    intro ty
    rw [inferVars]
    rw [Bool.true_or]
    exact ih _

/-- The variable loop reporting no change leaves the state unchanged. -/
theorem inferVars_false (M : Module) :
    ∀ (L : List Nat) (ty : Types) (ch : Bool),
      (inferVars M L (ty, ch)).2 = false → (inferVars M L (ty, ch)).1 = ty := by
  intro L
  induction L with
  | nil =>
    intro ty ch _
    rfl
  | cons v rest ih =>
    intro ty ch h
    rw [inferVars] at h ⊢
    cases hm : (inferMemoryType M ty v).2 with
    | true =>
      rw [hm, Bool.or_true, inferVars_true] at h
      cases h
    | false =>
      have hty := inferMemoryType_false M ty v hm
      rw [hm, Bool.or_false, hty] at h
      rw [Bool.or_false, hty]
      exact ih _ _ h

/-- One unchanged iteration of the fixed point leaves the state pointwise
unchanged and leaves every no-output instruction annotated `NoType`. -/
theorem iterOnce_false (M : Module) (o : Oracle) (f : Nat) (ty : Types)
    (r : Types × Bool × Nat × Nat) (h : iterOnce M o f ty = some r)
    (hch : r.2.1 = false) :
    (∀ k, r.1 k = ty k) ∧
    (∀ i ∈ instIdsOf M f, hasOutputK (instAt M i) = false →
      ty (VKey.inst i) = createNoType) := by
  unfold iterOnce at h
  cases h1 : inferInsts M o (instIdsOf M f) ty with
  | none => rw [h1] at h; cases h
  | some r1 =>
    rw [h1] at h
    obtain ⟨ty1, ch1, d1, d2⟩ := r1
    dsimp only at h
    cases h
    simp only at hch
    rcases Bool.or_eq_false_iff.mp hch with ⟨hh, h3⟩
    rcases Bool.or_eq_false_iff.mp hh with ⟨hc1, hc2⟩
    subst hc1
    have hins := inferInsts_false M o (instIdsOf M f) ty _ h1 rfl
    have hret := inferFunctionReturnType_false M ty1 f hc2
    have hvars := inferVars_false M (funcAt M f).vars _ false h3
    refine ⟨fun k => ?_, hins.2⟩
    rw [hvars, hret]
    exact hins.1 k

/-- A converged fixed-point loop ends in a state produced by an iteration
that reported no change. -/
theorem fixLoop_exit (M : Module) (o : Oracle) (f : Nat) :
    ∀ (fuel : Nat) (ty : Types) (r : Types × Nat × Nat),
      fixLoop M o f fuel ty = some r →
      ∃ typrev d1 d2, iterOnce M o f typrev = some (r.1, false, d1, d2) := by
  intro fuel
  induction fuel with
  | zero =>
    intro ty r h
    cases h
  | succ n ih =>
    intro ty r h
    rw [fixLoop] at h
    cases h1 : iterOnce M o f ty with
    | none => rw [h1] at h; cases h
    | some r1 =>
      rw [h1] at h
      obtain ⟨ty1, ch, d1, d2⟩ := r1
      dsimp only at h
      cases ch with
      | true =>
        simp only [if_pos rfl] at h
        cases h2 : fixLoop M o f n ty1 with
        | none => rw [h2] at h; cases h
        | some r2 =>
          rw [h2] at h
          obtain ⟨ty2, e1, e2⟩ := r2
          cases h
          exact ih ty1 (ty2, e1, e2) h2
      | false =>
        simp only [Bool.false_eq_true, if_false] at h
        cases h
        exact ⟨ty, d1, d2, h1⟩

/-- The monotonicity guard preserves a `NoType` annotation. -/
theorem guardPhase_noType (pre : List (VKey × Ty)) :
    ∀ (ks : List VKey) (ty : Types) (k : VKey),
      ty k = createNoType → guardPhase pre ty ks k = createNoType := by
  intro ks
  induction ks with
  | nil =>
    intro ty k h
    exact h
  | cons k0 rest ih =>
    intro ty k h
    rw [guardPhase]
    apply ih
    unfold checkAndSetPrePassType
    cases lookupPre pre k0 with
    | none => exact h
    | some t =>
      dsimp only
      split
      · exact h
      · by_cases hk : k = k0
        · subst hk
          rw [update_same, h, intersectTy_noType_right]
        · rw [update_other _ _ _ _ hk]
          exact h

/-- C2 (amended): after the pass completes on a function, every
instruction of that function that has no output carries `NoType`.  (The
converse direction of the claimed biconditional — every instruction with
an output carries a non-`NoType` annotation — fails on the code; see the
counterexample.) -/
theorem C2_output_discipline (M : Module) (o : Oracle) (fuel f : Nat) (ty : Types)
    (r : Types × Bool × Nat × Nat) (h : runOnFunction M o fuel f ty = some r) :
    ∀ i ∈ instIdsOf M f, hasOutputK (instAt M i) = false →
      r.1 (VKey.inst i) = createNoType := by
  unfold runOnFunction at h
  dsimp only at h
  cases hfix : fixLoop M o f fuel (inferParams M o f (clearTypesInFunction M f ty).2) with
  | none => rw [hfix] at h; cases h
  | some rr =>
    rw [hfix] at h
    obtain ⟨ty3, d1, d2⟩ := rr
    dsimp only at h
    cases h
    intro i hi hout
    obtain ⟨typrev, e1, e2, hiter⟩ := fixLoop_exit M o f fuel _ _ hfix
    have hit := iterOnce_false M o f typrev _ hiter rfl
    have hval : ty3 (VKey.inst i) = createNoType := by
      have h1 := hit.1 (VKey.inst i)
      have h2 := hit.2 i hi hout
      simpa [h2] using h1
    exact guardPhase_noType _ _ _ _ hval

/-- C2 counterexample: the pass completes on a `Mov` of a string literal
whose pre-pass annotation is `Number`; the guard intersects `Number` with
`String` and leaves `NoType` on an instruction that has an output, so the
claimed biconditional (the debug assertion of lines 1104-1113) fails. -/
theorem C2_counterexample :
    c2xRes.isSome = true ∧
    postOf c2xRes (VKey.inst 0) = createNoType ∧
    hasOutputK (instAt c2xM 0) = true := by decide

/-- Witness for C2: the amended output discipline on a concrete completed
run. -/
theorem C2_witness :
    ∃ r, runOnFunction wM noOracle 3 0 tyAny = some r ∧
      ∀ i ∈ instIdsOf wM 0, hasOutputK (instAt wM i) = false →
        r.1 (VKey.inst i) = createNoType :=
  ⟨_, rfl, C2_output_discipline wM noOracle 3 0 tyAny _ rfl⟩

/-! ## C1: the monotonicity guard -/

theorem clearList_lookup :
    ∀ (cs : List (VKey × Ty)) (ty : Types) (k : VKey),
      k ∈ cs.map Prod.fst →
      lookupPre (clearList ty cs).1 k = some (ty k) := by
  intro cs
  induction cs with
  | nil =>
    intro ty k h
    cases h
  | cons p rest ih =>
    intro ty k h
    obtain ⟨k0, cv⟩ := p
    by_cases hk : k = k0
    · subst hk
      show lookupPre ((k, ty k) :: (clearList (update ty k cv) rest).1) k = some (ty k)
      rw [lookupPre, if_pos rfl]
    · show lookupPre ((k0, ty k0) :: (clearList (update ty k0 cv) rest).1) k = some (ty k)
      rw [lookupPre, if_neg hk]
      have hmem : k ∈ rest.map Prod.fst := by
        rcases List.mem_cons.mp h with h' | h'
        · exact absurd h' hk
        · exact h'
      rw [ih _ _ hmem, update_other _ _ _ _ hk]

theorem guardPhase_other (pre : List (VKey × Ty)) :
    ∀ (ks : List VKey) (ty : Types) (k : VKey), k ∉ ks →
      guardPhase pre ty ks k = ty k := by
  intro ks
  induction ks with
  | nil =>
    intro ty k _
    rfl
  | cons k0 rest ih =>
    intro ty k hk
    rw [guardPhase]
    rw [ih _ _ fun hm => hk (List.mem_cons_of_mem _ hm)]
    unfold checkAndSetPrePassType
    cases lookupPre pre k0 with
    | none => rfl
    | some t =>
      dsimp only
      split
      · rfl
      · exact update_other _ _ _ _ fun he => hk (he ▸ List.mem_cons_self _ _)

theorem guardPhase_subset (pre : List (VKey × Ty)) :
    ∀ (ks : List VKey) (ty : Types) (k : VKey) (t : Ty),
      k ∈ ks → lookupPre pre k = some t →
      subsetTy (guardPhase pre ty ks k) t := by
  intro ks
  induction ks with
  | nil =>
    intro ty k t hk _
    cases hk
  | cons k0 rest ih =>
    intro ty k t hk hl
    rw [guardPhase]
    by_cases hmem : k ∈ rest
    · exact ih _ _ _ hmem hl
    · have hk0 : k = k0 := by
        rcases List.mem_cons.mp hk with h' | h'
        · exact h'
        · exact absurd h' hmem
      subst hk0
      rw [guardPhase_other pre rest _ _ hmem]
      unfold checkAndSetPrePassType
      rw [hl]
      dsimp only
      split
      · rename_i hc
        rw [hc]
        exact subsetTy_refl _
      · rw [update_same]
        exact subsetTy_intersect_left _ _

theorem guardKeys_subset_clearSpec (M : Module) (f : Nat) (k : VKey)
    (h : k ∈ guardKeys M f) : k ∈ (clearSpec M f).map Prod.fst := by
  unfold guardKeys at h
  unfold clearSpec
  rw [List.mem_append, List.mem_append, List.mem_append] at h
  simp only [List.map_append, List.mem_append]
  rcases h with ((hi | hf) | hp) | hv
  · rcases List.mem_map.mp hi with ⟨i, hmem, rfl⟩
    exact Or.inl (Or.inl (Or.inl (List.mem_map.mpr
      ⟨(VKey.inst i, (inherentTypeK (instAt M i)).getD createNoType),
        List.mem_map.mpr ⟨i, hmem, rfl⟩, rfl⟩)))
  · rw [List.mem_singleton] at hf
    subst hf
    exact Or.inr (List.mem_map.mpr ⟨(VKey.fn f, createNoType), List.mem_singleton.mpr rfl, rfl⟩)
  · rcases List.mem_map.mp hp with ⟨i, hmem, rfl⟩
    exact Or.inl (Or.inl (Or.inr (List.mem_map.mpr
      ⟨(VKey.par f i, createNoType), List.mem_map.mpr ⟨i, hmem, rfl⟩, rfl⟩)))
  · by_cases hg : (funcAt M f).isGlobalScope = true
    · rw [if_pos hg] at hv
      cases hv
    · rw [if_neg hg] at hv
      rcases List.mem_map.mp hv with ⟨v, hmem, rfl⟩
      exact Or.inl (Or.inr (List.mem_map.mpr
        ⟨(VKey.var v, createNoType), List.mem_map.mpr ⟨v, hmem, rfl⟩, rfl⟩))

/-- C1 (amended): after the pass runs on a function, the post-pass type
of every instruction of that function, of the function's return-type
annotation, and of every formal parameter is a subset (by set semantics
of the lattice) of the pre-pass type recorded before clearing; the same
holds for every variable of the function scope when the function is not
the global-scope function.  (The pass deliberately skips the guard on the
variables of the global function; see the counterexample.) -/
theorem C1_monotonicity_guard (M : Module) (o : Oracle) (fuel f : Nat) (ty : Types)
    (r : Types × Bool × Nat × Nat) (h : runOnFunction M o fuel f ty = some r) :
    (∀ i ∈ instIdsOf M f, subsetTy (r.1 (VKey.inst i)) (ty (VKey.inst i))) ∧
    subsetTy (r.1 (VKey.fn f)) (ty (VKey.fn f)) ∧
    (∀ i, i < (funcAt M f).paramCount →
      subsetTy (r.1 (VKey.par f i)) (ty (VKey.par f i))) ∧
    ((funcAt M f).isGlobalScope = false →
      ∀ v ∈ (funcAt M f).vars, subsetTy (r.1 (VKey.var v)) (ty (VKey.var v))) := by
  unfold runOnFunction at h
  dsimp only at h
  cases hfix : fixLoop M o f fuel (inferParams M o f (clearTypesInFunction M f ty).2) with
  | none => rw [hfix] at h; cases h
  | some rr =>
    rw [hfix] at h
    obtain ⟨ty3, d1, d2⟩ := rr
    dsimp only at h
    cases h
    have main : ∀ k ∈ guardKeys M f,
        subsetTy (guardPhase (clearTypesInFunction M f ty).1 ty3 (guardKeys M f) k)
          (ty k) := by
      intro k hk
      apply guardPhase_subset _ _ _ _ _ hk
      unfold clearTypesInFunction
      exact clearList_lookup _ _ _ (guardKeys_subset_clearSpec M f k hk)
    refine ⟨?_, ?_, ?_, ?_⟩
    · intro i hi
      refine main _ ?_
      unfold guardKeys
      rw [List.mem_append, List.mem_append, List.mem_append]
      exact Or.inl (Or.inl (Or.inl (List.mem_map.mpr ⟨i, hi, rfl⟩)))
    · refine main _ ?_
      unfold guardKeys
      rw [List.mem_append, List.mem_append, List.mem_append]
      exact Or.inl (Or.inl (Or.inr (List.mem_singleton.mpr rfl)))
    · intro i hip
      refine main _ ?_
      unfold guardKeys
      rw [List.mem_append, List.mem_append, List.mem_append]
      exact Or.inl (Or.inr (List.mem_map.mpr ⟨i, List.mem_range.mpr hip, rfl⟩))
    · intro hg v hv
      refine main _ ?_
      unfold guardKeys
      rw [List.mem_append, List.mem_append, List.mem_append]
      refine Or.inr ?_
      rw [if_neg (by simp [hg])]
      exact List.mem_map.mpr ⟨v, hv, rfl⟩

/-- C1 counterexample: the pass completes on a global-scope function with
one variable whose pre-pass annotation is `Number` but which only stores
`undefined`; the post-pass variable type `Undefined` is not a subset of
the pre-pass `Number`, because the guard loop skips the variables of the
global function (line 1098). -/
theorem C1_counterexample :
    c1xRes.isSome = true ∧
    ¬ subsetTy (postOf c1xRes (VKey.var 0)) (c1xTy0 (VKey.var 0)) := by decide

/-- Witness for C1: the amended monotonicity guard on a concrete
completed run of a non-global function. -/
theorem C1_witness :
    ∃ r, runOnFunction wM noOracle 3 0 tyAny = some r ∧
      ((∀ i ∈ instIdsOf wM 0, subsetTy (r.1 (VKey.inst i)) (tyAny (VKey.inst i))) ∧
       subsetTy (r.1 (VKey.fn 0)) (tyAny (VKey.fn 0)) ∧
       (∀ i, i < (funcAt wM 0).paramCount →
         subsetTy (r.1 (VKey.par 0 i)) (tyAny (VKey.par 0 i))) ∧
       ((funcAt wM 0).isGlobalScope = false →
         ∀ v ∈ (funcAt wM 0).vars, subsetTy (r.1 (VKey.var v)) (tyAny (VKey.var v)))) :=
  ⟨_, rfl, C1_monotonicity_guard wM noOracle 3 0 tyAny _ rfl⟩

/-! ## C5: the PHI rule -/

/-- Unfolding equation of `collectPHIInputs` at positive fuel, with the
entry fold expressed through `collectStep`. -/
theorem collectPHIInputs_succ (M : Module) (fuel p : Nat) (st : List Nat × List Value) :
    collectPHIInputs M (fuel + 1) p st =
      if p ∈ st.1 then st
      else (phiEntries M p).foldl (collectStep M fuel) (p :: st.1, st.2) := rfl

/-- Unfolding equation of `collectStep` on an instruction reference. -/
theorem collectStep_instRef (M : Module) (n : Nat) (acc : List Nat × List Value) (q : Nat) :
    collectStep M n acc (.instRef q) =
      if isPhiK (instAt M q) then collectPHIInputs M n q acc
      else (acc.1, insertValue (.instRef q) acc.2) := rfl

/-- Membership in `insertValue`. -/
theorem mem_insertValue {v e : Value} {l : List Value} :
    v ∈ insertValue e l ↔ v = e ∨ v ∈ l := by
  unfold insertValue
  by_cases h : e ∈ l
  · rw [if_pos h]
    constructor
    · exact fun hv => Or.inr hv
    · rintro (rfl | hv)
      · exact h
      · exact hv
  · rw [if_neg h]
    exact List.mem_cons

theorem subset_insertValue (e : Value) (l : List Value) : l ⊆ insertValue e l :=
  fun _ hv => mem_insertValue.mpr (Or.inr hv)

theorem self_mem_insertValue (e : Value) (l : List Value) : e ∈ insertValue e l :=
  mem_insertValue.mpr (Or.inl rfl)

/-- A fold whose every step grows both state components grows them
overall. -/
theorem foldl_state_mono (f : List Nat × List Value → Value → List Nat × List Value)
    (hf : ∀ acc e, acc.1 ⊆ (f acc e).1 ∧ acc.2 ⊆ (f acc e).2) :
    ∀ (L : List Value) (acc : List Nat × List Value),
      acc.1 ⊆ (L.foldl f acc).1 ∧ acc.2 ⊆ (L.foldl f acc).2 := by
  intro L
  induction L with
  | nil => exact fun acc => ⟨fun _ h => h, fun _ h => h⟩
  | cons e L ih =>
    intro acc
    rw [List.foldl_cons]
    have h1 := hf acc e
    have h2 := ih (f acc e)
    exact ⟨fun x hx => h2.1 (h1.1 hx), fun x hx => h2.2 (h1.2 hx)⟩

/-- `collectPHIInputs` only grows the visited and input sets. -/
theorem collect_mono (M : Module) :
    ∀ (fuel p : Nat) (st : List Nat × List Value),
      st.1 ⊆ (collectPHIInputs M fuel p st).1 ∧
      st.2 ⊆ (collectPHIInputs M fuel p st).2 := by
  intro fuel
  induction fuel with
  | zero => exact fun p st => ⟨fun _ h => h, fun _ h => h⟩
  | succ n ih =>
    intro p st
    rw [collectPHIInputs_succ]
    by_cases hp : p ∈ st.1
    · rw [if_pos hp]
      exact ⟨fun _ h => h, fun _ h => h⟩
    · rw [if_neg hp]
      have hstep : ∀ (acc : List Nat × List Value) (e : Value),
          acc.1 ⊆ (collectStep M n acc e).1 ∧ acc.2 ⊆ (collectStep M n acc e).2 := by
        intro acc e
        cases e
        next q =>
          rw [collectStep_instRef]
          by_cases hq : isPhiK (instAt M q) = true
          · rw [if_pos hq]
            exact ih q acc
          · rw [if_neg hq]
            exact ⟨fun _ h => h, subset_insertValue _ _⟩
        all_goals
          dsimp only [collectStep]
          exact ⟨fun _ h => h, subset_insertValue _ _⟩
      have hfold := foldl_state_mono (collectStep M n) hstep (phiEntries M p) (p :: st.1, st.2)
      exact ⟨fun x hx => hfold.1 (List.mem_cons_of_mem p hx), hfold.2⟩

/-- One `collectStep` grows both state components. -/
theorem collectStep_mono (M : Module) (n : Nat) (acc : List Nat × List Value) (e : Value) :
    acc.1 ⊆ (collectStep M n acc e).1 ∧ acc.2 ⊆ (collectStep M n acc e).2 := by
  cases e
  next q =>
    rw [collectStep_instRef]
    by_cases hq : isPhiK (instAt M q) = true
    · rw [if_pos hq]
      exact collect_mono M n q acc
    · rw [if_neg hq]
      exact ⟨fun _ h => h, subset_insertValue _ _⟩
  all_goals
    dsimp only [collectStep]
    exact ⟨fun _ h => h, subset_insertValue _ _⟩

/-- A non-PHI value is inserted into the input set by its own
`collectStep`. -/
theorem collectStep_self_mem (M : Module) (n : Nat) (acc : List Nat × List Value)
    (e : Value) (he : isPhiValue M e = false) : e ∈ (collectStep M n acc e).2 := by
  cases e
  next q =>
    rw [collectStep_instRef]
    have he' : isPhiK (instAt M q) = false := he
    rw [if_neg (by simp [he'])]
    exact self_mem_insertValue _ _
  all_goals
    dsimp only [collectStep]
    exact self_mem_insertValue _ _

/-- A fold preserves an invariant preserved by each elementwise step. -/
theorem foldl_inv (P : List Nat × List Value → Prop)
    (f : List Nat × List Value → Value → List Nat × List Value) :
    ∀ (L : List Value) (acc : List Nat × List Value),
      (∀ acc e, e ∈ L → P acc → P (f acc e)) → P acc → P (L.foldl f acc) := by
  intro L
  induction L with
  | nil => exact fun acc _ h => h
  | cons e L ih =>
    intro acc hf hP
    rw [List.foldl_cons]
    exact ih (f acc e) (fun acc' e' he' => hf acc' e' (List.mem_cons_of_mem e he'))
      (hf acc e (List.mem_cons_self e L) hP)

/-- Soundness of the DFS: every visited id is a PHI-tree-reachable node
and every collected value is a transitive non-PHI input of the root. -/
theorem collect_sound (M : Module) (root : Nat) :
    ∀ (fuel p : Nat) (st : List Nat × List Value),
      PhiReach M root p →
      (∀ q ∈ st.1, PhiReach M root q) →
      (∀ v ∈ st.2, PhiInput M root v) →
      (∀ q ∈ (collectPHIInputs M fuel p st).1, PhiReach M root q) ∧
      (∀ v ∈ (collectPHIInputs M fuel p st).2, PhiInput M root v) := by
  intro fuel
  induction fuel with
  | zero => exact fun p st _ h1 h2 => ⟨h1, h2⟩
  | succ n ih =>
    intro p st hp h1 h2
    rw [collectPHIInputs_succ]
    by_cases hin : p ∈ st.1
    · rw [if_pos hin]
      exact ⟨h1, h2⟩
    · rw [if_neg hin]
      refine foldl_inv
        (fun acc => (∀ q ∈ acc.1, PhiReach M root q) ∧ (∀ v ∈ acc.2, PhiInput M root v))
        (collectStep M n) (phiEntries M p) (p :: st.1, st.2) ?_ ?_
      · intro acc e he hPacc
        cases e
        next q =>
          rw [collectStep_instRef]
          by_cases hq : isPhiK (instAt M q) = true
          · rw [if_pos hq]
            exact ih q acc (PhiReach.step hp he hq) hPacc.1 hPacc.2
          · rw [if_neg hq]
            dsimp only
            refine ⟨hPacc.1, ?_⟩
            intro v hv
            rcases mem_insertValue.mp hv with rfl | hv'
            · refine ⟨p, hp, he, ?_⟩
              show isPhiK (instAt M q) = false
              cases hb : isPhiK (instAt M q)
              · rfl
              · exact absurd hb hq
            · exact hPacc.2 v hv'
        all_goals
          dsimp only [collectStep]
          exact ⟨hPacc.1, fun v hv => by
            rcases mem_insertValue.mp hv with rfl | hv'
            · exact ⟨p, hp, he, rfl⟩
            · exact hPacc.2 v hv'⟩
      · refine ⟨?_, h2⟩
        intro q hq
        rcases List.mem_cons.mp hq with rfl | hq'
        · exact hp
        · exact h1 q hq'

/-- A pointwise-stronger filter keeps at most as many elements. -/
theorem length_filter_mono {α : Type} (p q : α → Bool) (hpq : ∀ x, p x = true → q x = true) :
    ∀ l : List α, (l.filter p).length ≤ (l.filter q).length := by
  intro l
  induction l with
  | nil => exact Nat.le_refl 0
  | cons a l ih =>
    rw [List.filter_cons, List.filter_cons]
    by_cases hpa : p a = true
    · rw [if_pos hpa, if_pos (hpq a hpa)]
      exact Nat.succ_le_succ ih
    · rw [if_neg hpa]
      by_cases hqa : q a = true
      · rw [if_pos hqa]
        exact Nat.le_succ_of_le ih
      · rw [if_neg hqa]
        exact ih

/-- A pointwise-stronger filter that additionally drops a kept element
keeps strictly fewer elements. -/
theorem length_filter_lt {α : Type} (p q : α → Bool) (hpq : ∀ x, p x = true → q x = true)
    (a : α) (hpa : p a = false) (hqa : q a = true) :
    ∀ l : List α, a ∈ l → (l.filter p).length < (l.filter q).length := by
  intro l
  induction l with
  | nil => exact fun h => absurd h (List.not_mem_nil a)
  | cons b l ih =>
    intro hmem
    rw [List.filter_cons, List.filter_cons]
    rcases List.mem_cons.mp hmem with rfl | hmem'
    · rw [if_neg (by simp [hpa]), if_pos hqa]
      exact Nat.lt_succ_of_le (length_filter_mono p q hpq l)
    · by_cases hpb : p b = true
      · rw [if_pos hpb, if_pos (hpq b hpb)]
        exact Nat.succ_lt_succ (ih hmem')
      · rw [if_neg hpb]
        by_cases hqb : q b = true
        · rw [if_pos hqb]
          exact Nat.lt_succ_of_lt (ih hmem')
        · rw [if_neg hqb]
          exact ih hmem'

/-- Growing the visited set cannot increase the number of unvisited PHI
ids. -/
theorem countUnvisited_anti (M : Module) {vis vis' : List Nat} (h : vis ⊆ vis') :
    countUnvisited M vis' ≤ countUnvisited M vis := by
  unfold countUnvisited
  refine length_filter_mono _ _ ?_ (phiIds M)
  intro x hx
  simp only [decide_eq_true_eq] at hx ⊢
  exact fun hmem => hx (h hmem)

/-- Visiting a new PHI id strictly decreases the number of unvisited PHI
ids. -/
theorem countUnvisited_cons (M : Module) {p : Nat} {vis : List Nat}
    (hmem : p ∈ phiIds M) (hnot : p ∉ vis) :
    countUnvisited M (p :: vis) < countUnvisited M vis := by
  unfold countUnvisited
  refine length_filter_lt _ _ ?_ p ?_ ?_ (phiIds M) hmem
  · intro x hx
    simp only [decide_eq_true_eq] at hx ⊢
    exact fun hmemv => hx (List.mem_cons_of_mem p hmemv)
  · simp
  · simp [hnot]

/-- Every id whose instruction is a PHI occurs in `phiIds`. -/
theorem mem_phiIds (M : Module) (q : Nat) (h : isPhiK (instAt M q) = true) :
    q ∈ phiIds M := by
  unfold instAt at h
  unfold phiIds
  suffices hgen : ∀ l : List (Nat × InstKind),
      isPhiK ((lookupInst l q).getD .branch) = true →
      q ∈ (l.filter fun jk => isPhiK jk.2).map Prod.fst from hgen M.instrs h
  intro l
  induction l with
  | nil => intro h0; exact absurd h0 (by simp [lookupInst, isPhiK])
  | cons jk l ih =>
    obtain ⟨j, k⟩ := jk
    intro h0
    rw [show lookupInst ((j, k) :: l) q = if q = j then some k else lookupInst l q from rfl] at h0
    by_cases hqj : q = j
    · rw [if_pos hqj] at h0
      have hk : isPhiK k = true := h0
      rw [List.filter_cons, if_pos (by exact hk)]
      rw [List.map_cons]
      exact hqj ▸ List.mem_cons_self _ _
    · rw [if_neg hqj] at h0
      have hmem := ih h0
      rw [List.filter_cons]
      by_cases hk : isPhiK (j, k).2 = true
      · rw [if_pos hk, List.map_cons]
        exact List.mem_cons_of_mem _ hmem
      · rw [if_neg hk]
        exact hmem

/-- Closure at a PHI is preserved by growing the visited and input
sets. -/
theorem EntriesClosed_mono (M : Module) (q : Nat) {V V' : List Nat} {I I' : List Value}
    (hV : V ⊆ V') (hI : I ⊆ I') (h : EntriesClosed M q V I) : EntriesClosed M q V' I' :=
  ⟨fun r hr hp => hV (h.1 r hr hp), fun e he hn => hI (h.2 e he hn)⟩

/-- Postcondition of the entry fold of `collectPHIInputs`, given the
completeness induction hypothesis for the recursive calls at fuel `n`:
PHI entries of the folded list get visited, non-PHI entries get
collected, and every newly visited PHI is closed in the result. -/
theorem collectFold_post (M : Module) (n : Nat)
    (IH : ∀ (p : Nat) (st : List Nat × List Value),
      isPhiK (instAt M p) = true → countUnvisited M st.1 < n →
      p ∈ (collectPHIInputs M n p st).1 ∧
      ∀ q, q ∈ (collectPHIInputs M n p st).1 → q ∉ st.1 →
        EntriesClosed M q (collectPHIInputs M n p st).1 (collectPHIInputs M n p st).2) :
    ∀ (L : List Value) (acc : List Nat × List Value),
      countUnvisited M acc.1 < n →
      (∀ r : Nat, Value.instRef r ∈ L → isPhiK (instAt M r) = true →
        r ∈ (L.foldl (collectStep M n) acc).1) ∧
      (∀ e ∈ L, isPhiValue M e = false → e ∈ (L.foldl (collectStep M n) acc).2) ∧
      (∀ q, q ∈ (L.foldl (collectStep M n) acc).1 → q ∉ acc.1 →
        EntriesClosed M q (L.foldl (collectStep M n) acc).1
          (L.foldl (collectStep M n) acc).2) := by
  intro L
  induction L with
  | nil =>
    intro acc _
    exact ⟨fun r hr _ => absurd hr (List.not_mem_nil _),
           fun e he _ => absurd he (List.not_mem_nil _),
           fun q hq hnq => absurd hq hnq⟩
  | cons e L ihL =>
    intro acc hcount
    rw [List.foldl_cons]
    have hstep := collectStep_mono M n acc e
    have hcount' : countUnvisited M (collectStep M n acc e).1 < n :=
      Nat.lt_of_le_of_lt (countUnvisited_anti M hstep.1) hcount
    have hmono := foldl_state_mono (collectStep M n) (collectStep_mono M n) L
      (collectStep M n acc e)
    have hrest := ihL (collectStep M n acc e) hcount'
    refine ⟨?_, ?_, ?_⟩
    · intro r hr hphir
      rcases List.mem_cons.mp hr with heq | hr'
      · have hstep_eq : collectStep M n acc e = collectPHIInputs M n r acc := by
          rw [← heq, collectStep_instRef, if_pos hphir]
        have hrIn : r ∈ (collectPHIInputs M n r acc).1 := (IH r acc hphir hcount).1
        exact hmono.1 (by rw [hstep_eq]; exact hrIn)
      · exact hrest.1 r hr' hphir
    · intro e' he' hnphi
      rcases List.mem_cons.mp he' with rfl | he''
      · exact hmono.2 (collectStep_self_mem M n acc e' hnphi)
      · exact hrest.2.1 e' he'' hnphi
    · intro q hq hnq
      by_cases hq' : q ∈ (collectStep M n acc e).1
      · cases e
        next r =>
          by_cases hr : isPhiK (instAt M r) = true
          · have hstep_eq : collectStep M n acc (.instRef r) = collectPHIInputs M n r acc := by
              rw [collectStep_instRef, if_pos hr]
            have hcl := (IH r acc hr hcount).2 q (by rw [hstep_eq] at hq'; exact hq') hnq
            refine EntriesClosed_mono M q ?_ ?_ hcl
            · rw [← hstep_eq]
              exact hmono.1
            · rw [← hstep_eq]
              exact hmono.2
          · have hacc1 : (collectStep M n acc (.instRef r)).1 = acc.1 := by
              rw [collectStep_instRef, if_neg hr]
            rw [hacc1] at hq'
            exact absurd hq' hnq
        all_goals
          dsimp only [collectStep] at hq'
          exact absurd hq' hnq
      · exact hrest.2.2 q hq hq'

/-- Completeness invariant of the DFS: with fuel exceeding the number of
unvisited PHI ids, the root is visited and every newly visited PHI is
closed in the result. -/
theorem collect_post (M : Module) :
    ∀ (fuel p : Nat) (st : List Nat × List Value),
      isPhiK (instAt M p) = true → countUnvisited M st.1 < fuel →
      p ∈ (collectPHIInputs M fuel p st).1 ∧
      ∀ q, q ∈ (collectPHIInputs M fuel p st).1 → q ∉ st.1 →
        EntriesClosed M q (collectPHIInputs M fuel p st).1
          (collectPHIInputs M fuel p st).2 := by
  intro fuel
  induction fuel with
  | zero => intro p st _ hcount; exact absurd hcount (Nat.not_lt_zero _)
  | succ n ih =>
    intro p st hphi hcount
    rw [collectPHIInputs_succ]
    by_cases hin : p ∈ st.1
    · rw [if_pos hin]
      exact ⟨hin, fun q hq hnq => absurd hq hnq⟩
    · rw [if_neg hin]
      have hcount' : countUnvisited M (p :: st.1) < n := by
        have h1 := countUnvisited_cons M (mem_phiIds M p hphi) hin
        omega
      have hfold := collectFold_post M n ih (phiEntries M p) (p :: st.1, st.2) hcount'
      refine ⟨?_, ?_⟩
      · exact (foldl_state_mono (collectStep M n) (collectStep_mono M n) (phiEntries M p)
          (p :: st.1, st.2)).1 (List.mem_cons_self p st.1)
      · intro q hq hnq
        by_cases hqp : q = p
        · subst hqp
          exact ⟨fun r hr hphir => hfold.1 r hr hphir, fun e he hnphi => hfold.2.1 e he hnphi⟩
        · have hnq' : q ∉ (p :: st.1 : List Nat) := by
            intro hmem
            rcases List.mem_cons.mp hmem with h | h
            · exact hqp h
            · exact hnq h
          exact hfold.2.2 q hq hnq'

/-- The fuel `|instrs| + 1` passed by `inferPhi` exceeds the number of
PHI ids. -/
theorem countUnvisited_lt_fuel (M : Module) :
    countUnvisited M [] < M.instrs.length + 1 := by
  unfold countUnvisited phiIds
  have h1 := List.length_filter_le (fun j => decide (j ∉ ([] : List Nat)))
    ((M.instrs.filter fun jk => isPhiK jk.2).map Prod.fst)
  have h2 : ((M.instrs.filter fun jk => isPhiK jk.2).map Prod.fst).length =
      (M.instrs.filter fun jk => isPhiK jk.2).length := by simp
  have h3 := List.length_filter_le (fun jk => isPhiK jk.2) M.instrs
  omega

/-- The input set collected by `collectPHIInputs` at the standard fuel is
exactly the claim-side set of transitive non-PHI inputs. -/
theorem collectPHIInputs_iff (M : Module) (i : Nat) (hphi : isPhiK (instAt M i) = true)
    (v : Value) :
    v ∈ (collectPHIInputs M (M.instrs.length + 1) i ([], [])).2 ↔ PhiInput M i v := by
  constructor
  · intro hv
    exact (collect_sound M i (M.instrs.length + 1) i ([], []) PhiReach.refl
      (fun q hq => absurd hq (List.not_mem_nil q))
      (fun w hw => absurd hw (List.not_mem_nil w))).2 v hv
  · rintro ⟨q, hreach, hmem, hnphi⟩
    have hpost := collect_post M (M.instrs.length + 1) i ([], []) hphi
      (countUnvisited_lt_fuel M)
    have hvis : ∀ r, PhiReach M i r →
        r ∈ (collectPHIInputs M (M.instrs.length + 1) i ([], [])).1 := by
      intro r hr
      induction hr with
      | refl => exact hpost.1
      | step hq hmem' hphir ihr =>
        have hcl := hpost.2 _ ihr (List.not_mem_nil _)
        exact hcl.1 _ hmem' hphir
    have hcl := hpost.2 q (hvis q hreach) (List.not_mem_nil q)
    exact hcl.2 v hmem hnphi

/-- Membership in the union accumulated by the `inferPhi` value fold. -/
theorem phiFold_fst_mem (ty : Types) (L : List Value) (acc : Ty × Bool) (g : Tag) :
    ((L.foldl (fun (acc : Ty × Bool) input =>
        (unionTy (valueType ty input) acc.1, acc.2 || isNoType (valueType ty input)))
        acc).1).mem g =
      (acc.1.mem g || L.any fun v => (valueType ty v).mem g) := by
  induction L generalizing acc with
  | nil => simp
  | cons v L ih =>
    rw [List.foldl_cons, List.any_cons, ih]
    dsimp only
    rw [mem_unionTy]
    cases hb1 : acc.1.mem g <;> cases hb2 : (valueType ty v).mem g <;> simp

/-- The NoType flag accumulated by the `inferPhi` value fold. -/
theorem phiFold_snd (ty : Types) (L : List Value) (acc : Ty × Bool) :
    (L.foldl (fun (acc : Ty × Bool) input =>
        (unionTy (valueType ty input) acc.1, acc.2 || isNoType (valueType ty input)))
        acc).2 =
      (acc.2 || L.any fun v => isNoType (valueType ty v)) := by
  induction L generalizing acc with
  | nil => simp
  | cons v L ih =>
    rw [List.foldl_cons, List.any_cons, ih]
    dsimp only
    rw [Bool.or_assoc]

/-- `inferInstruction` routes a PHI to `inferPhi`. -/
theorem inferInstruction_phi (M : Module) (o : Oracle) (ty : Types) (i : Nat)
    (entries : List Value) (hk : instAt M i = .phi entries) :
    inferInstruction M o ty i =
      some ((inferPhi M ty i entries).1, (inferPhi M ty i entries).2, 0, 0) := by
  unfold inferInstruction
  rw [hk]

/-- On a nonempty entry list, `inferPhi` writes the folded union and
reports a change when the union differs from the previous type or some
input was untyped. -/
theorem inferPhi_eq (M : Module) (ty : Types) (i : Nat) (entries : List Value)
    (hne : entries ≠ []) :
    inferPhi M ty i entries =
      (update ty (VKey.inst i) (phiFoldSt M ty i).1,
       decide ((phiFoldSt M ty i).1 ≠ ty (VKey.inst i)) || (phiFoldSt M ty i).2) := by
  unfold inferPhi
  rw [if_neg (by have := List.length_pos.mpr hne; omega)]
  rfl

/-- C5: for a PHI instruction with at least one entry, the step writes
back exactly the union of the types of the transitive non-PHI inputs
reachable through the tree of PHIs feeding it (the visited set handling
cycles), leaves every other annotation unchanged and bumps no counter,
and reports "changed" if and only if some such input still had `NoType`
or the newly computed type differs from the PHI's previous type. -/
theorem C5_phi_rule (M : Module) (o : Oracle) (ty : Types) (i : Nat)
    (entries : List Value) (hk : instAt M i = .phi entries) (hne : entries ≠ []) :
    inferInstruction M o ty i =
      some (update ty (VKey.inst i) (phiFoldSt M ty i).1,
        decide ((phiFoldSt M ty i).1 ≠ ty (VKey.inst i)) || (phiFoldSt M ty i).2, 0, 0) ∧
    (∀ g, ((phiFoldSt M ty i).1).mem g = true ↔
      ∃ v, PhiInput M i v ∧ (valueType ty v).mem g = true) ∧
    ((decide ((phiFoldSt M ty i).1 ≠ ty (VKey.inst i)) || (phiFoldSt M ty i).2) = true ↔
      (∃ v, PhiInput M i v ∧ valueType ty v = createNoType) ∨
        (phiFoldSt M ty i).1 ≠ ty (VKey.inst i)) := by
  have hphi : isPhiK (instAt M i) = true := by rw [hk]; rfl
  refine ⟨?_, ?_, ?_⟩
  · rw [inferInstruction_phi M o ty i entries hk, inferPhi_eq M ty i entries hne]
  · intro g
    unfold phiFoldSt
    rw [phiFold_fst_mem]
    dsimp only
    rw [mem_noType, Bool.false_or, List.any_eq_true]
    constructor
    · rintro ⟨v, hv, hmem⟩
      exact ⟨v, (collectPHIInputs_iff M i hphi v).mp hv, hmem⟩
    · rintro ⟨v, hv, hmem⟩
      exact ⟨v, (collectPHIInputs_iff M i hphi v).mpr hv, hmem⟩
  · rw [Bool.or_eq_true, decide_eq_true_eq]
    unfold phiFoldSt
    rw [phiFold_snd]
    dsimp only
    rw [Bool.false_or, List.any_eq_true]
    constructor
    · rintro (hne' | ⟨v, hv, hno⟩)
      · exact Or.inr hne'
      · exact Or.inl ⟨v, (collectPHIInputs_iff M i hphi v).mp hv, isNoType_iff.mp hno⟩
    · rintro (⟨v, hv, hno⟩ | hne')
      · exact Or.inr ⟨v, (collectPHIInputs_iff M i hphi v).mpr hv, isNoType_iff.mpr hno⟩
      · exact Or.inl hne'

/-- Witness for C5: the PHI rule instantiated at the concrete PHI over a
number and a string literal. -/
theorem C5_witness :
    instAt c5M 0 = InstKind.phi [Value.litNumber 0, Value.litString 1] ∧
    (inferInstruction c5M noOracle tyNo 0 =
      some (update tyNo (VKey.inst 0) (phiFoldSt c5M tyNo 0).1,
        decide ((phiFoldSt c5M tyNo 0).1 ≠ tyNo (VKey.inst 0)) ||
          (phiFoldSt c5M tyNo 0).2, 0, 0) ∧
     (∀ g, ((phiFoldSt c5M tyNo 0).1).mem g = true ↔
       ∃ v, PhiInput c5M 0 v ∧ (valueType tyNo v).mem g = true) ∧
     ((decide ((phiFoldSt c5M tyNo 0).1 ≠ tyNo (VKey.inst 0)) ||
         (phiFoldSt c5M tyNo 0).2) = true ↔
       (∃ v, PhiInput c5M 0 v ∧ valueType tyNo v = createNoType) ∨
         (phiFoldSt c5M tyNo 0).1 ≠ tyNo (VKey.inst 0))) :=
  ⟨rfl, C5_phi_rule c5M noOracle tyNo 0 [Value.litNumber 0, Value.litString 1] rfl
    (by decide)⟩

end TypeInference
